import Mathlib

/-!
Shallow embedding of the biver-rs single-file version-control engine
(src/src/repository_data.rs, src/src/repository_operations.rs, src/src/xdelta3.rs
and the small helper modules), together with theorems settling the frozen claims.

Modelling conventions:
* Machine integers (`u64`, `u128`, `usize`) are modelled as `Nat`; no operation in the
  embedded code can overflow them on the values the theorems quantify over.
* `VersionId` (src/src/version_id.rs is not among the provided sources) is modelled from
  the spec as a natural number below `2 ^ 128`.
* The iterators `iter_ancestors` / `iter_version_and_ancestors` walk `parent` links by
  repeated lookup; the embedding materialises them as a fuel-bounded list
  (`ancestor_chain`), with fuel `versions.length` at every use site, matching the code
  whenever the parent graph is acyclic and lookups succeed (on cyclic data the Rust
  iterator diverges, which is outside every theorem's hypotheses).
* I/O boundaries (file length, file hash, the freshly minted random id, the clock,
  subprocess readiness) become explicit parameters; `expect`/`unwrap`/validation panics
  become an explicit `Panicked` outcome, and a propagated `Err` becomes `IoError`.
-/

set_option maxRecDepth 4096

namespace Biver

/-- Modelled from the spec: `VersionId` is a 128-bit opaque identifier
(src/src/version_id.rs is not among the provided sources); the 128-bit value is
represented as a natural number. -/
abbrev VersionId := Nat

/-- Modelled from the spec: the Base58 alphabet used by `IdentityCodec`
(`version_id.rs` is not among the provided sources). -/
def base58Alphabet : List Char :=
  "123456789ABCDEFGHJKLMNPQRSTUVWXYZabcdefghijkmnopqrstuvwxyz".toList

/-- Modelled from the spec: `from_base58(s) → id?` decodes a Base58 string to a 128-bit
value, failing on the empty string, on a character outside the alphabet, and on a value
that does not fit in 128 bits. -/
def VersionId.from_bs58 (s : String) : Option VersionId :=
  if s.toList.isEmpty then none
  else
    (s.toList.foldl
      (fun acc c =>
        acc.bind fun n =>
          match base58Alphabet.indexOf? c with
          | none => none
          | some d => some (n * 58 + d))
      (some 0)).bind
      fun n => if n < 2 ^ 128 then some n else none

/-- Modelled from the spec: `to_file_name(id)` maps distinct ids to distinct
filesystem-safe names; decimal digits are filesystem safe and `Nat` printing is
injective. -/
def VersionId.to_file_name (id : VersionId) : String :=
  toString id

/-- src/src/repository_data.rs: `enum ContentBlobKind { Full, Patch(VersionId) }`. -/
inductive ContentBlobKind
  | Full
  | Patch (base : VersionId)
deriving DecidableEq

/-- src/src/repository_data.rs: `ContentBlobKind::is_patch`. -/
def ContentBlobKind.is_patch : ContentBlobKind → Bool
  | .Patch _ => true
  | .Full => false

/-- src/src/repository_data.rs: `enum Head { Branch(String), Version(VersionId) }`. -/
inductive Head
  | Branch (name : String)
  | Version (id : VersionId)
deriving DecidableEq

/-- src/src/repository_data.rs: `Head::branch`. -/
def Head.branch : Head → Option String
  | .Branch name => some name
  | .Version _ => none

/-- src/src/repository_data.rs: `struct Version`. `creation_time` (a UTC instant in the
source) is modelled as a natural number, ordered like the instants it stands for. -/
structure Version where
  id : VersionId
  creation_time : Nat
  nickname : String
  versioned_file_length : Nat
  versioned_file_xxh3_128 : Nat
  description : String
  parent : Option VersionId
  content_blob_file_name : String
  content_blob_kind : ContentBlobKind
  preview_blob_file_name : Option String
deriving DecidableEq

/-- Modelled from the spec: `Version::is_root` is used by `reset` but is not among the
provided sources; per the data model exactly the versions without a parent are roots. -/
def Version.is_root (v : Version) : Bool :=
  v.parent.isNone

/-- src/src/repository_data.rs: `struct RepositoryData`. The `branches` hash map is
modelled as an association list with pairwise distinct keys; the map's iteration order
(unspecified in the source) is fixed to the list order. -/
structure RepositoryData where
  head : Head
  branches : List (String × VersionId)
  versions : List Version
deriving DecidableEq

/-- `HashMap::contains_key` on the association-list model. -/
def contains_key (m : List (String × VersionId)) (k : String) : Bool :=
  m.any fun kv => kv.1 == k

/-- `HashMap::insert` on the association-list model: replace in place, or append. -/
def map_insert (m : List (String × VersionId)) (k : String) (v : VersionId) :
    List (String × VersionId) :=
  if contains_key m k then m.map fun kv => if kv.1 == k then (k, v) else kv
  else m ++ [(k, v)]

/-- `HashMap::remove` on the association-list model (the removed value is recovered with
`List.lookup` at call sites). -/
def map_remove (m : List (String × VersionId)) (k : String) :
    List (String × VersionId) :=
  m.filter fun kv => kv.1 != k

/-- src/src/repository_data.rs: `RepositoryData::version` — first stored version with the
given id. -/
def version (d : RepositoryData) (id : VersionId) : Option Version :=
  d.versions.find? fun v => v.id == id

/-- src/src/repository_data.rs: `RepositoryData::head_version`; the two `expect` panics
(missing head branch, missing head version) are modelled as `none`. -/
def head_version (d : RepositoryData) : Option Version :=
  match d.head with
  | .Branch branch => (List.lookup branch d.branches).bind fun id => version d id
  | .Version version_id => version d version_id

/-- src/src/repository_data.rs: `RepositoryData::iter_children` materialised. -/
def iter_children (d : RepositoryData) (version_id : VersionId) : List Version :=
  d.versions.filter fun v => v.parent == some version_id

/-- src/src/repository_data.rs: `RepositoryData::valid` — the five checks the writer
actually performs (the `HashSet` cardinality comparison is `dedup` length here). -/
def valid (d : RepositoryData) : Bool :=
  let there_is_exactly_one_root :=
    (d.versions.filter fun v => v.parent.isNone).length == 1
  let there_are_no_invalid_parent_references :=
    d.versions.all fun v =>
      match v.parent with
      | some parent => d.versions.any fun v2 => v2.id == parent
      | none => true
  let head_reference_is_valid :=
    match d.head with
    | .Branch branch => contains_key d.branches branch
    | .Version version_id => d.versions.any fun v => v.id == version_id
  let all_branches_reference_valid_versions :=
    (d.branches.map Prod.snd).all fun branch_version_id =>
      d.versions.any fun v => v.id == branch_version_id
  let no_two_branches_reference_the_same_version :=
    (d.branches.map Prod.snd).dedup.length == (d.branches.map Prod.snd).length
  there_is_exactly_one_root
    && there_are_no_invalid_parent_references
    && head_reference_is_valid
    && all_branches_reference_valid_versions
    && no_two_branches_reference_the_same_version

/-- src/src/repository_data.rs: `iter_version_and_ancestors` materialised with explicit
fuel: start at the version with the given id and repeatedly follow `parent`, stopping
when a lookup fails (for `iter_ancestors` the failing lookup panics in the source; no
theorem below quantifies over that case) or when the fuel runs out (the source iterator
would diverge only on a parent cycle). -/
def ancestor_chain (d : RepositoryData) : Nat → VersionId → List Version
  | 0, _ => []
  | fuel + 1, id =>
    match version d id with
    | none => []
    | some v =>
      v ::
        match v.parent with
        | none => []
        | some p => ancestor_chain d fuel p

/-- src/src/repository_operations.rs: `MAX_CONSECUTIVE_PATCHES`. -/
def MAX_CONSECUTIVE_PATCHES : Nat := 7

/-- Length of the consecutive-Patch prefix of the ancestor chain starting at `id`
(the `iter_ancestors(..).take_while(is_patch).count()` of the source, at the given
fuel). -/
def patch_run (d : RepositoryData) (fuel : Nat) (id : VersionId) : Nat :=
  ((ancestor_chain d fuel id).takeWhile fun v => v.content_blob_kind.is_patch).length

/-- src/src/repository_operations.rs: `content_blob_kind_for_child_of`. -/
def content_blob_kind_for_child_of (d : RepositoryData) (parent_version_id : VersionId) :
    ContentBlobKind :=
  let patch_sequence_count := patch_run d d.versions.length parent_version_id + 1
  if MAX_CONSECUTIVE_PATCHES ≤ patch_sequence_count then ContentBlobKind.Full
  else ContentBlobKind.Patch parent_version_id

/-- src/src/repository_operations.rs: `content_blob_file_name`. -/
def content_blob_file_name (version_id : VersionId) : String :=
  VersionId.to_file_name version_id ++ "_content"

/-- src/src/repository_operations.rs: `preview_blob_file_name`. -/
def preview_blob_file_name (version_id : VersionId) : String :=
  VersionId.to_file_name version_id ++ "_preview"

/-- src/src/nickname.rs: `ADJECTIVES`. -/
def ADJECTIVES : List String := [
  "able", "acid", "aged", "airy", "bold", "bony", "boss", "brief", "brisk", "busy", "calm",
  "cheap", "chief", "civil", "clean", "clear", "close", "cold", "cool", "crisp", "curly",
  "damp", "dark", "dead", "dear", "deep", "dense", "dim", "dizzy", "dry", "dull", "dusty",
  "early", "east", "easy", "empty", "even", "evil", "fair", "fake", "far", "fast", "fat",
  "few", "fine", "firm", "fit", "flat", "fond", "foul", "free", "fresh", "full", "giant",
  "glad", "good", "grand", "gray", "great", "green", "gross", "half", "happy", "hard",
  "harsh", "hasty", "heavy", "high", "holy", "hot", "huge", "icy", "ideal", "idle", "iron",
  "jolly", "joint", "keen", "kind", "known", "lame", "large", "last", "late", "lazy",
  "lean", "least", "left", "legal", "level", "light", "limp", "live", "livid", "lone",
  "long", "loose", "lost", "loud", "low", "loyal", "lucid", "lucky", "mad", "main",
  "major", "meek", "mere", "messy", "mild", "mint", "misty", "mixed", "moral", "muddy",
  "mute", "naval", "near", "neat", "new", "next", "nice", "noble", "noted", "novel",
  "odd", "oily", "old", "open", "other", "oval", "pale", "past", "petty", "plain",
  "plump", "poor", "prime", "prior", "proud", "pure", "quick", "quiet", "rapid", "rare",
  "raw", "ready", "real", "red", "rich", "right", "rigid", "rocky", "rough", "round",
  "rowdy", "royal", "rural", "rusty", "sad", "safe", "salty", "sandy", "sane", "scaly",
  "scary", "sharp", "shiny", "short", "shy", "sick", "silky", "silly", "sleek", "slim",
  "slimy", "slow", "small", "smart", "smoky", "soft", "solid", "sorry", "sour", "spare",
  "spicy", "steep", "stiff", "stony", "sunny", "super", "sweet", "swift", "tall", "tame",
  "tan", "tart", "tasty", "tense", "thick", "thin", "tidy", "tiny", "tired", "total",
  "tough", "true", "twin", "ugly", "ultra", "unfit", "urban", "used", "usual", "vague",
  "valid", "vast", "vital", "vivid", "warm", "wary", "weak", "weary", "west", "wet",
  "white", "whole", "wide", "wild", "windy", "wise", "witty", "worn", "worst", "wrong",
  "young", "zany", "zero"]

/-- src/src/nickname.rs: `NOUNS`. -/
def NOUNS : List String := [
  "ace", "act", "age", "air", "ant", "ape", "arch", "area", "arm", "army", "art", "atom",
  "axe", "baby", "back", "ball", "band", "bank", "barn", "base", "bath", "bay", "bead",
  "beam", "bean", "bear", "beat", "bed", "bee", "belt", "bend", "bike", "bird", "bit",
  "blow", "boat", "body", "bolt", "bomb", "bone", "book", "boot", "boss", "bowl", "box",
  "boy", "bush", "cake", "calf", "call", "camp", "cape", "card", "cart", "case", "cash",
  "cast", "cat", "cave", "cell", "chip", "city", "clay", "clip", "clock", "club", "coal",
  "coat", "code", "coil", "coin", "cone", "copy", "cord", "core", "cork", "corn", "cost",
  "crab", "crew", "crop", "crow", "cup", "curb", "cure", "dad", "dame", "data", "date",
  "dawn", "day", "deal", "dean", "deck", "deer", "desk", "dial", "dice", "diet", "dime",
  "disk", "dock", "doll", "dome", "door", "dose", "dot", "dove", "down", "drag", "draw",
  "drop", "drum", "duck", "dune", "dust", "duty", "eagle", "earl", "edge", "eel", "face",
  "fact", "fall", "fame", "fang", "farm", "fawn", "fear", "feat", "feed", "feel", "fern",
  "file", "film", "fire", "fish", "fist", "flag", "flame", "flat", "flow", "foam", "fog",
  "fold", "font", "food", "foot", "fork", "form", "fort", "fowl", "fox", "fuel", "game",
  "gap", "gate", "gear", "gift", "girl", "goal", "goat", "gold", "golf", "gown", "grab",
  "grade", "gram", "grid", "grip", "gulf", "gull", "hall", "hand", "hare", "harm", "hawk",
  "head", "heap", "heat", "heel", "herb", "herd", "hero", "hill", "hint", "hire", "hole",
  "home", "hook", "hope", "horn", "host", "hour", "hunt", "idea", "inch", "iron", "isle",
  "item", "jade", "jail", "joke", "jury", "keep", "kent", "kick", "king", "kite", "knee",
  "lake", "lamb", "lamp", "land", "lark", "lawn", "lead", "leaf", "lens", "life", "lift",
  "limb", "line", "link", "lion", "list", "loaf", "loan", "lock", "loft", "log", "look",
  "loop", "lord", "love", "lung", "mall", "mane", "map", "mark", "mask", "mass", "mate",
  "math", "meal", "meat", "mile", "milk", "mill", "mind", "mint", "mist", "moat", "mode",
  "mole", "monk", "mood", "moon", "moss", "moth", "move", "myth", "nail", "name", "navy",
  "neck", "need", "nest", "news", "nose", "note", "pace", "pack", "page", "pain", "pair",
  "palm", "pan", "park", "part", "pass", "past", "path", "peak", "pear", "peg", "pen",
  "pest", "pick", "pier", "pile", "pine", "pipe", "plan", "play", "plot", "poem", "poet",
  "pole", "poll", "pond", "pony", "pool", "port", "post", "pull", "pump", "race", "rack",
  "raft", "rage", "rail", "rain", "rank", "rate", "ray", "reef", "rent", "rest", "rice",
  "ride", "ring", "rise", "risk", "road", "rock", "role", "roof", "room", "root", "rope",
  "rose", "row", "rule", "run", "sage", "sail", "sale", "salt", "sand", "seal", "seat",
  "seed", "self", "shed", "ship", "shop", "shot", "show", "side", "sign", "silk", "site",
  "size", "skin", "slab", "slip", "slot", "snow", "soap", "sock", "soil", "soul", "soup",
  "spot", "star", "step", "stew", "stop", "suit", "swan", "tale", "talk", "tank", "tape",
  "task", "taxi", "team", "tent", "term", "test", "text", "tide", "tile", "time", "toad",
  "toll", "tomb", "tone", "tool", "top", "tour", "town", "tray", "tree", "trek", "trim",
  "trip", "tub", "tube", "tune", "turf", "turn", "twig", "type", "unit", "user", "vase",
  "vast", "veil", "vein", "verb", "vest", "view", "vine", "volt", "vote", "wage", "walk",
  "wall", "wave", "wax", "web", "weed", "week", "well", "west", "whip", "wick", "wife",
  "wind", "wine", "wing", "wire", "wish", "wolf", "wood", "wool", "word", "work", "worm",
  "wrap", "yard", "year", "yolk", "zone"]

/-- src/src/nickname.rs: `new_nickname` — the 128-bit hash modulo each list length picks
the adjective and the noun. -/
def new_nickname (random_value : Nat) : String :=
  let adjective_index := random_value % ADJECTIVES.length
  let noun_index := random_value % NOUNS.length
  (ADJECTIVES.getD adjective_index "") ++ "-" ++ (NOUNS.getD noun_index "")

/-- Rust `char::eq_ignore_ascii_case`; `Char.toLower` lowers exactly the ASCII
uppercase letters, like `to_ascii_lowercase`. -/
def eq_ignore_ascii_case (a b : Char) : Bool :=
  a.toLower == b.toLower

/-- src/src/repository_operations.rs: `nickname_matches`. Byte indices of the source
(`input.len()`, `nickname.find` + `chars().nth`) are rendered with `utf8ByteSize` and
character positions; on the stored `adjective-noun` nicknames (ASCII, with a dash) the
two coincide, and the `unwrap`ed reads are total, so the out-of-range defaults used here
are never reached there. -/
def nickname_matches (nickname input : String) : Bool :=
  let nick := nickname.toList
  let inp := input.toList
  if nick.length == inp.length && (nick.zip inp).all (fun p => eq_ignore_ascii_case p.1 p.2) then
    true
  else
    let pairs := (nick.filter fun c => c != '-').zip inp
    if (pairs.all fun p => eq_ignore_ascii_case p.1 p.2) && pairs.length == input.utf8ByteSize then
      true
    else if input.utf8ByteSize != 2 then false
    else
      let input_initials_first := inp.getD 0 ' '
      let input_initials_second := inp.getD 1 ' '
      let index_of_dash := (nick.findIdx? fun c => c == '-').getD nick.length
      let nickname_initials_first := nick.getD 0 ' '
      let nickname_initials_second := nick.getD (index_of_dash + 1) ' '
      eq_ignore_ascii_case input_initials_first nickname_initials_first
        && eq_ignore_ascii_case input_initials_second nickname_initials_second

/-- Rust `usize::from_str` as used on the text after `~`: an optional `+` sign followed
by at least one decimal digit (overflow, impossible at the call site's chain lengths, is
ignored). -/
def parse_usize (s : String) : Option Nat :=
  let chars := s.toList
  let digits := if chars.head? == some '+' then chars.tail else chars
  if digits.isEmpty then none
  else if digits.all Char.isDigit then
    some (digits.foldl (fun acc c => acc * 10 + (c.toNat - 48)) 0)
  else none

/-- src/src/repository_operations.rs: `enum TargetResult`. -/
inductive TargetResult
  | Branch (name : String)
  | Version (version : Biver.Version)
  | Invalid
deriving DecidableEq

/-- src/src/repository_operations.rs: `resolve_target`. `none` models the
`head_version` panics reachable from the offset rules on inconsistent data. The
source's stable `sort_by` descending `creation_time` is rendered with the stable
`insertionSort`, which produces the same list. -/
def resolve_target (d : RepositoryData) (target : String) : Option TargetResult :=
  if target.toList.isEmpty then some .Invalid
  else if contains_key d.branches target then some (.Branch target)
  else
    match
      match VersionId.from_bs58 target with
      | some id => d.versions.find? fun (v : Version) => v.id == id
      | none => none
    with
    | some v => some (.Version v)
    | none =>
      if target == "~" then (head_version d).map .Version
      else
        match
          if target.toList.head? == some '~' then parse_usize (String.mk target.toList.tail)
          else none
        with
        | some offset =>
          match head_version d with
          | none => none
          | some hv =>
            match (ancestor_chain d d.versions.length hv.id).get? offset with
            | none => some .Invalid
            | some target_version => some (.Version target_version)
        | none =>
          let sorted :=
            d.versions.insertionSort fun (a b : Version) => b.creation_time ≤ a.creation_time
          match sorted.find? (fun (v : Version) => nickname_matches v.nickname target) with
          | some v => some (.Version v)
          | none => some .Invalid

/-- src/src/repository_operations.rs: `resolve_target_strict` — only rule 2 (Base58
version id). -/
def resolve_target_strict (d : RepositoryData) (target : String) : Option Biver.Version :=
  if target.toList.isEmpty then none
  else
    match VersionId.from_bs58 target with
    | some id => d.versions.find? fun v => v.id == id
    | none => none

/-- Values an operation reads from outside the data model: the versioned file's current
length and XXH3-128 hash, the freshly minted random version id, the clock, whether a
preview can be created (`can_create_preview`: image tool ready and image extension), and
whether the external delta tool is available (spawning it fails otherwise). -/
structure Boundary where
  versioned_file_length : Nat
  versioned_file_xxh3_128 : Nat
  new_version_id : VersionId
  now : Nat
  can_create_preview : Bool
  xdelta3_ready : Bool
deriving DecidableEq

/-- How an embedded operation left its caller: a returned tagged outcome, a propagated
`Err` (I/O), or a panic (`expect`/`unwrap`/the validity check in `write_data_file`). -/
inductive OpExit (ρ : Type)
  | Returned (r : ρ)
  | IoError
  | Panicked
deriving DecidableEq

/-- The observable outcome of a mutating operation: its exit, the in-memory
`RepositoryData` afterwards, and whether the content blob and the metadata document were
written (blobs are written before metadata, src/src/repository_operations.rs). -/
structure OpOutcome (ρ : Type) where
  exit : OpExit ρ
  data : RepositoryData
  content_blob_written : Bool
  data_file_written : Bool
deriving DecidableEq

/-- src/src/repository_operations.rs: `enum CommitResult`. -/
inductive CommitResult
  | Ok
  | NothingToCommit
  | BranchRequired
  | BranchAlreadyExists
deriving DecidableEq

/-- Shared tail of `commit_version` / `amend_head`: write the content blob (a Patch blob
invokes the external delta tool, whose spawn fails when it is unavailable; the base
version is `unwrap`ed from the already-mutated data first), then `write_data_file`,
which panics when the mutated data fails `valid`. -/
def finish_with_blobs (ρ : Type) (b : Boundary) (d1 : RepositoryData)
    (kind : ContentBlobKind) (ok : ρ) : OpOutcome ρ :=
  match kind with
  | .Patch base_version_id =>
    match version d1 base_version_id with
    | none => ⟨.Panicked, d1, false, false⟩
    | some _ =>
      if b.xdelta3_ready then
        if valid d1 then ⟨.Returned ok, d1, true, true⟩ else ⟨.Panicked, d1, true, false⟩
      else ⟨.IoError, d1, false, false⟩
  | .Full =>
    if valid d1 then ⟨.Returned ok, d1, true, true⟩ else ⟨.Panicked, d1, true, false⟩

/-- src/src/repository_operations.rs: `commit_version`. -/
def commit_version (d : RepositoryData) (b : Boundary) (new_branch : Option String)
    (description : Option String) : OpOutcome CommitResult :=
  match head_version d with
  | none => ⟨.Panicked, d, false, false⟩
  | some parent =>
    if b.versioned_file_xxh3_128 == parent.versioned_file_xxh3_128 then
      ⟨.Returned .NothingToCommit, d, false, false⟩
    else if
      match new_branch with
      | some nb => contains_key d.branches nb
      | none => false
    then ⟨.Returned .BranchAlreadyExists, d, false, false⟩
    else
      match
        match new_branch with
        | some nb => some nb
        | none => Head.branch d.head
      with
      | none => ⟨.Returned .BranchRequired, d, false, false⟩
      | some branch =>
        let content_blob_kind := content_blob_kind_for_child_of d parent.id
        let new_version : Version :=
          { id := b.new_version_id
            creation_time := b.now
            nickname := new_nickname b.versioned_file_xxh3_128
            versioned_file_length := b.versioned_file_length
            versioned_file_xxh3_128 := b.versioned_file_xxh3_128
            description := description.getD ""
            parent := some parent.id
            content_blob_file_name := content_blob_file_name b.new_version_id
            content_blob_kind := content_blob_kind
            preview_blob_file_name :=
              if b.can_create_preview then some (preview_blob_file_name b.new_version_id)
              else none }
        let d1 : RepositoryData :=
          { head := Head.Branch branch
            branches := map_insert d.branches branch b.new_version_id
            versions := d.versions ++ [new_version] }
        finish_with_blobs CommitResult b d1 content_blob_kind .Ok

/-- src/src/repository_operations.rs: `enum AmendResult`. -/
inductive AmendResult
  | Ok
  | NoUncommittedChanges
  | HeadMustBeBranch
  | CannotAmendParent
  | HeadEqualsParent
deriving DecidableEq

/-- Mutating tail of `amend_head` once every refusal has been ruled out: mint the
replacement version, repoint the branch, swap the old head out of `versions`. -/
def amend_finish (d : RepositoryData) (b : Boundary) (description : Option String)
    (head : Version) (head_branch : String) : OpOutcome AmendResult :=
  let content_blob_kind :=
    match head.parent with
    | some parent_id => content_blob_kind_for_child_of d parent_id
    | none => ContentBlobKind.Full
  let new_head : Version :=
    { id := b.new_version_id
      creation_time := b.now
      nickname := new_nickname b.versioned_file_xxh3_128
      versioned_file_length := b.versioned_file_length
      versioned_file_xxh3_128 := b.versioned_file_xxh3_128
      description := description.getD head.description
      parent := head.parent
      content_blob_file_name := content_blob_file_name b.new_version_id
      content_blob_kind := content_blob_kind
      preview_blob_file_name :=
        if b.can_create_preview then some (preview_blob_file_name b.new_version_id)
        else none }
  let d1 : RepositoryData :=
    { head := d.head
      branches := map_insert d.branches head_branch b.new_version_id
      versions := (d.versions.filter fun v => v.id != head.id) ++ [new_head] }
  finish_with_blobs AmendResult b d1 content_blob_kind .Ok

/-- src/src/repository_operations.rs: `amend_head`. -/
def amend_head (d : RepositoryData) (b : Boundary) (description : Option String) :
    OpOutcome AmendResult :=
  match head_version d with
  | none => ⟨.Panicked, d, false, false⟩
  | some head =>
    if b.versioned_file_xxh3_128 == head.versioned_file_xxh3_128 then
      ⟨.Returned .NoUncommittedChanges, d, false, false⟩
    else
      match Head.branch d.head with
      | none => ⟨.Returned .HeadMustBeBranch, d, false, false⟩
      | some head_branch =>
        if !(iter_children d head.id).isEmpty then
          ⟨.Returned .CannotAmendParent, d, false, false⟩
        else
          match head.parent with
          | some parent_id =>
            match version d parent_id with
            | none => ⟨.Panicked, d, false, false⟩
            | some parent_version =>
              if parent_version.versioned_file_xxh3_128 == b.versioned_file_xxh3_128 then
                ⟨.Returned .HeadEqualsParent, d, false, false⟩
              else amend_finish d b description head head_branch
          | none => amend_finish d b description head head_branch

/-- src/src/repository_operations.rs: `has_uncommitted_changes` — length fast path, then
hash comparison; the current file's length and hash are boundary inputs. -/
def has_uncommitted_changes (d : RepositoryData)
    (versioned_file_length versioned_file_xxh3_128 : Nat) : Option Bool :=
  (head_version d).map fun hv =>
    if versioned_file_length != hv.versioned_file_length then true
    else hv.versioned_file_xxh3_128 != versioned_file_xxh3_128

/-- src/src/extensions.rs: `count_is_at_least` on a materialised iterator. -/
def count_is_at_least (l : List Version) (n : Nat) : Bool :=
  n ≤ l.length

/-- src/src/repository_operations.rs: `enum ResetResult`. -/
inductive ResetResult
  | Ok
  | HeadMustBeBranch
  | InvalidTarget
  | CannotLeaveOrphans
deriving DecidableEq

/-- src/src/repository_operations.rs: `reset` — the pure mutation, up to the final
`write_data_file` (modelled by `write_data_file` below); `none` models the
`head_version` panic on inconsistent data. -/
def reset (d : RepositoryData) (target : String) : Option (ResetResult × RepositoryData) :=
  match d.head with
  | .Version _ => some (.HeadMustBeBranch, d)
  | .Branch branch =>
    match resolve_target_strict d target with
    | none => some (.InvalidTarget, d)
    | some target_version =>
      match head_version d with
      | none => none
      | some hv =>
        let erased_versions :=
          (ancestor_chain d d.versions.length hv.id).takeWhile
            fun v => v.id != target_version.id
        if erased_versions.any Version.is_root then some (.InvalidTarget, d)
        else if count_is_at_least (iter_children d hv.id) 1 then
          some (.CannotLeaveOrphans, d)
        else if erased_versions.any (fun v => count_is_at_least (iter_children d v.id) 2) then
          some (.CannotLeaveOrphans, d)
        else
          let erased_version_ids := erased_versions.map Version.id
          some (.Ok,
            { head := d.head
              branches := map_insert d.branches branch target_version.id
              versions := d.versions.filter fun v => !(erased_version_ids.contains v.id) })

/-- src/src/repository_operations.rs: `enum DeleteBranchResult`. -/
inductive DeleteBranchResult
  | Ok
  | BranchDoesNotExist
  | CannotDeleteHead
deriving DecidableEq

/-- The `HashSet`-with-break accumulation inside `delete_branch`: walk one ancestor
chain, inserting ids until one is already present, then stop. -/
def add_chain_break (s : List VersionId) : List Version → List VersionId
  | [] => s
  | v :: rest => if s.contains v.id then s else add_chain_break (s ++ [v.id]) rest

/-- src/src/repository_operations.rs: the `versions_on_other_branches` set of
`delete_branch`, accumulated over the other branches in map order. -/
def versions_on_other_branches (d : RepositoryData) (name : String) : List VersionId :=
  (d.branches.filter fun kv => kv.1 != name).foldl
    (fun s kv => add_chain_break s (ancestor_chain d d.versions.length kv.2)) []

/-- src/src/repository_operations.rs: `delete_branch`, including the final
`write_data_file`, whose validity check panics instead of persisting invalid data. -/
def delete_branch (d : RepositoryData) (name : String) : OpOutcome DeleteBranchResult :=
  if !(contains_key d.branches name) then ⟨.Returned .BranchDoesNotExist, d, false, false⟩
  else
    match List.lookup name d.branches with
    | none => ⟨.Panicked, d, false, false⟩
    | some branch_leaf_version_id =>
      let s := versions_on_other_branches d name
      let erased_version_ids :=
        ((ancestor_chain d d.versions.length branch_leaf_version_id).map Version.id).takeWhile
          fun id => !(s.contains id)
      match head_version d with
      | none => ⟨.Panicked, d, false, false⟩
      | some hv =>
        if erased_version_ids.contains hv.id then
          ⟨.Returned .CannotDeleteHead, d, false, false⟩
        else
          let d1 : RepositoryData :=
            { head := d.head
              branches := map_remove d.branches name
              versions := d.versions.filter fun v => !(erased_version_ids.contains v.id) }
          if valid d1 then ⟨.Returned .Ok, d1, false, true⟩
          else ⟨.Panicked, d1, false, false⟩

/-- src/src/repository_operations.rs: `write_data_file`, as a persistence gate: the
document is written only when `valid` holds, otherwise the writer panics (`none`); the
rolling backup cascade touches only backup files and is not part of the data model. -/
def write_data_file (d : RepositoryData) : Option RepositoryData :=
  if valid d then some d else none

/-- The file system at the granularity the restore path observes it: the set of paths
that currently exist, as a list. File contents play no role in the restore claims. -/
abbrev FileSystem := List String

/-- Rust `fs::remove_file`: fails (with `NotFound`) when the path does not exist. -/
def remove_file (fs : FileSystem) (path : String) : Option FileSystem :=
  if fs.contains path then some (fs.filter fun p => p != path) else none

/-- Rust `fs::copy`: fails when the source does not exist; creates or overwrites the
destination. -/
def copy_file (fs : FileSystem) (src dst : String) : Option FileSystem :=
  if fs.contains src then some (if fs.contains dst then fs else fs ++ [dst]) else none

/-- src/src/xdelta3.rs: `apply_patch` — unconditionally `remove_file` the output first
(propagating the failure), then spawn the tool, which succeeds when it is available and
its source and patch files exist. -/
def apply_patch (xdelta3_ready : Bool) (fs : FileSystem) (old patch new : String) :
    Option FileSystem :=
  (remove_file fs new).bind fun fs1 =>
    if xdelta3_ready && fs1.contains old && fs1.contains patch then
      some (fs1 ++ [new])
    else none

/-- src/src/repository_paths.rs: `RepositoryPaths::file_path` — a blob name resolved
inside the repository directory. -/
def file_path (repository_dir file_name : String) : String :=
  repository_dir ++ "/" ++ file_name

/-- src/src/repository_operations.rs: `write_version_content` — Full blobs are copied to
the output, Patch blobs are applied with the base version's blob (the base version is
`expect`ed to exist; `none` also models every propagated I/O failure). -/
def write_version_content (xdelta3_ready : Bool) (repository_dir : String)
    (d : RepositoryData) (v : Version) (output : String) (fs : FileSystem) :
    Option FileSystem :=
  let blob_path := file_path repository_dir v.content_blob_file_name
  match v.content_blob_kind with
  | .Full => copy_file fs blob_path output
  | .Patch base_version_id =>
    match version d base_version_id with
    | none => none
    | some base_version =>
      apply_patch xdelta3_ready fs
        (file_path repository_dir base_version.content_blob_file_name) blob_path output

/-- src/src/repository_operations.rs: `enum RestoreResult`. -/
inductive RestoreResult
  | Ok
  | BlockedByUncommittedChanges
  | InvalidTarget
deriving DecidableEq

/-- src/src/repository_operations.rs: `restore` — refuse on uncommitted changes, resolve
the target, reconstruct its content to the output path (default: the versioned file).
The current file's length and hash are boundary inputs; `none` models a panic or a
propagated I/O error. -/
def restore (xdelta3_ready : Bool) (repository_dir : String) (d : RepositoryData)
    (target : String) (output : Option String) (versioned_file : String)
    (versioned_file_length versioned_file_xxh3_128 : Nat) (fs : FileSystem) :
    Option (RestoreResult × FileSystem) :=
  match has_uncommitted_changes d versioned_file_length versioned_file_xxh3_128 with
  | none => none
  | some true => some (.BlockedByUncommittedChanges, fs)
  | some false =>
    match resolve_target d target with
    | none => none
    | some .Invalid => some (.InvalidTarget, fs)
    | some (.Branch branch) =>
      match (List.lookup branch d.branches).bind fun id => version d id with
      | none => none
      | some target_version =>
        (write_version_content xdelta3_ready repository_dir d target_version
            (output.getD versioned_file) fs).map
          fun fs1 => (.Ok, fs1)
    | some (.Version target_version) =>
      (write_version_content xdelta3_ready repository_dir d target_version
          (output.getD versioned_file) fs).map
        fun fs1 => (.Ok, fs1)

/-- Spec §3 invariant 1, in the spec's words: exactly one version has no parent. -/
def spec_exactly_one_root (d : RepositoryData) : Bool :=
  (d.versions.filter fun v => v.parent.isNone).length == 1

/-- Spec §3 invariant 2, in the spec's words: every referenced parent exists. -/
def spec_every_parent_exists (d : RepositoryData) : Bool :=
  d.versions.all fun v =>
    match v.parent with
    | some p => d.versions.any fun w => w.id == p
    | none => true

/-- Spec §3 invariant 3, in the spec's words: the head references a known branch or a
known version. -/
def spec_head_is_known (d : RepositoryData) : Bool :=
  match d.head with
  | .Branch b => d.branches.any fun kv => kv.1 == b
  | .Version id => d.versions.any fun v => v.id == id

/-- Spec §3 invariant 4, in the spec's words: every branch's tip references a known
version. -/
def spec_branch_tips_are_known (d : RepositoryData) : Bool :=
  d.branches.all fun kv => d.versions.any fun v => v.id == kv.2

/-- Spec §3 invariant 5, in the spec's words: no two branches share the same tip. -/
def spec_no_two_branches_share_a_tip (d : RepositoryData) : Bool :=
  (d.branches.map Prod.snd).Nodup

/-- Spec §3 invariant 6, in the spec's words: every version is an ancestor (reflexive)
of at least one branch tip. -/
def spec_every_version_reachable (d : RepositoryData) : Bool :=
  d.versions.all fun v =>
    d.branches.any fun kv => (ancestor_chain d d.versions.length kv.2).contains v

/-- Spec §3 invariant 7, in the spec's words: for any Patch blob, the referenced base
belongs to an ancestor of this version whose content blob is Full. -/
def spec_patch_bases_are_full_ancestors (d : RepositoryData) : Bool :=
  d.versions.all fun v =>
    match v.content_blob_kind with
    | .Patch base =>
      (ancestor_chain d d.versions.length v.id).any fun a =>
        a.id == base && !a.content_blob_kind.is_patch
    | .Full => true

/-- Every ancestor chain terminates naturally within `versions.length` steps (no parent
cycle and no fuel exhaustion): the property under which the fuel-bounded
`ancestor_chain` coincides with the source's unbounded iterator. -/
def stable_chains (d : RepositoryData) : Prop :=
  ∀ id, (ancestor_chain d (d.versions.length + 1) id).length ≤ d.versions.length

/-- The patch-chain bound of the spec: along any parent chain, every run of consecutive
Patch-stored versions is strictly shorter than `MAX_CONSECUTIVE_PATCHES`, at every
fuel. -/
def patch_chain_bounded (d : RepositoryData) : Prop :=
  ∀ fuel id, patch_run d fuel id < MAX_CONSECUTIVE_PATCHES

/-- The erased set E of the reset claim: the prefix of the head-to-root ancestor chain
up to (not including) the target — exactly the `erased_versions` list of the source. -/
def erased_set (d : RepositoryData) (hv tv : Version) : List Version :=
  (ancestor_chain d d.versions.length hv.id).takeWhile fun v => v.id != tv.id

/-- Concrete-version builder for the example repositories below. -/
def mkVersion (id : VersionId) (parent : Option VersionId) (kind : ContentBlobKind)
    (len hash : Nat) : Version :=
  { id := id
    creation_time := id
    nickname := "bold-atom"
    versioned_file_length := len
    versioned_file_xxh3_128 := hash
    description := ""
    parent := parent
    content_blob_file_name := content_blob_file_name id
    content_blob_kind := kind
    preview_blob_file_name := none }

/-- A repository whose version `2` is stored but not an ancestor of any branch tip. -/
def exampleUnreachable : RepositoryData :=
  { head := Head.Branch "main"
    branches := [("main", 1)]
    versions := [mkVersion 1 none .Full 1 10, mkVersion 2 (some 1) .Full 2 20] }

/-- A linear two-version repository: Full root `1`, child `2` stored as a Patch based on
`1`, branch `main` at `2`. -/
def examplePatchChild : RepositoryData :=
  { head := Head.Branch "main"
    branches := [("main", 2)]
    versions := [mkVersion 1 none .Full 1 10, mkVersion 2 (some 1) (.Patch 1) 2 20] }

/-- Boundary for committing on `examplePatchChild`: changed file, fresh id `3`, delta
tool available. -/
def exampleBoundaryPatchChild : Boundary :=
  { versioned_file_length := 3
    versioned_file_xxh3_128 := 30
    new_version_id := 3
    now := 3
    can_create_preview := false
    xdelta3_ready := true }

/-- A one-version repository: Full root `1` on branch `main`. -/
def exampleSingle : RepositoryData :=
  { head := Head.Branch "main"
    branches := [("main", 1)]
    versions := [mkVersion 1 none .Full 1 10] }

/-- Boundary for committing on `exampleSingle` with the delta tool unavailable. -/
def exampleBoundaryNoTool : Boundary :=
  { versioned_file_length := 2
    versioned_file_xxh3_128 := 20
    new_version_id := 2
    now := 2
    can_create_preview := false
    xdelta3_ready := false }

/-- Boundary for committing on `exampleSingle` with an unchanged file (hash `10`). -/
def exampleBoundaryUnchanged : Boundary :=
  { versioned_file_length := 1
    versioned_file_xxh3_128 := 10
    new_version_id := 7
    now := 7
    can_create_preview := false
    xdelta3_ready := true }

/-- One-version repository whose head records length `2` and hash `5`. -/
def exampleLenTwo : RepositoryData :=
  { head := Head.Branch "main"
    branches := [("main", 1)]
    versions := [mkVersion 1 none .Full 2 5] }

/-- Branch `main` and a version nicknamed `main-deer`: the branch must win. -/
def exampleBranchVsNickname : RepositoryData :=
  { head := Head.Branch "main"
    branches := [("main", 1)]
    versions := [{ mkVersion 1 none .Full 1 10 with nickname := "main-deer" }] }

/-- Two branches, `a` tipping the root `1` and `b` tipping its child `2`; head on `a`,
whose tip is reachable from `b`. -/
def exampleHeadBranchCovered : RepositoryData :=
  { head := Head.Branch "a"
    branches := [("a", 1), ("b", 2)]
    versions := [mkVersion 1 none .Full 1 10, mkVersion 2 (some 1) .Full 2 20] }

/-- Two branches, `a` tipping the child `2` and `b` tipping the root `1`; head on `a`,
whose tip only `a` reaches. -/
def exampleHeadBranchExclusive : RepositoryData :=
  { head := Head.Branch "a"
    branches := [("a", 2), ("b", 1)]
    versions := [mkVersion 1 none .Full 1 10, mkVersion 2 (some 1) .Full 2 20] }

/-- Full root `1` and its Full child `2` on branch `main`, for resetting to `"2"`
(the Base58 spelling of id `1`). -/
def exampleResettable : RepositoryData :=
  { head := Head.Branch "main"
    branches := [("main", 2)]
    versions := [mkVersion 1 none .Full 1 10, mkVersion 2 (some 1) .Full 2 20] }

/-- Repository for the restore claims: Full root `1`, Patch child `2` (the head, whose
recorded length/hash match the current file below). -/
def exampleRestore : RepositoryData :=
  { head := Head.Branch "main"
    branches := [("main", 2)]
    versions := [mkVersion 1 none .Full 5 50, mkVersion 2 (some 1) (.Patch 1) 6 60] }

/-- On-disk state for `exampleRestore`: both content blobs exist in repository directory
`"r"`; the fresh output path `"out"` does not. -/
def exampleRestoreFs : FileSystem :=
  [file_path "r" (content_blob_file_name 1), file_path "r" (content_blob_file_name 2), "f"]

end Biver

namespace Biver

/-! Helper lemmas shared across the claims. -/

/-- The `HashSet` cardinality test inside `valid` is exactly `Nodup`. -/
theorem dedup_length_beq_iff (l : List VersionId) :
    (l.dedup.length == l.length) = true ↔ l.Nodup := by
  rw [beq_iff_eq]
  constructor
  · intro h
    rw [← List.dedup_eq_self]
    exact (List.dedup_sublist l).eq_of_length h
  · intro h
    rw [List.dedup_eq_self.mpr h]

/-- Checking all mapped tips is checking every branch's tip. -/
theorem all_map_snd (l : List (String × VersionId)) (p : VersionId → Bool) :
    (l.map Prod.snd).all p = l.all fun kv => p kv.2 := by
  induction l with
  | nil => rfl
  | cons kv rest ih => simp [List.all_cons, ih]

/-- The writer's five checks coincide with spec invariants 1-5. -/
theorem valid_iff_five_invariants (d : RepositoryData) :
    valid d = true ↔
      (spec_exactly_one_root d = true ∧ spec_every_parent_exists d = true ∧
        spec_head_is_known d = true ∧ spec_branch_tips_are_known d = true ∧
        spec_no_two_branches_share_a_tip d = true) := by
  unfold valid spec_exactly_one_root spec_every_parent_exists spec_head_is_known
    spec_branch_tips_are_known spec_no_two_branches_share_a_tip contains_key
  simp only [Bool.and_eq_true, all_map_snd, decide_eq_true_eq, dedup_length_beq_iff]
  tauto

/-- C1. The writer does not validate all seven invariants: `exampleUnreachable` violates
invariant 6 (its version `2` is an ancestor of no branch tip) yet passes `valid` and is
persisted by `write_data_file` instead of triggering the abort. -/
theorem C1_counterexample :
    write_data_file exampleUnreachable = some exampleUnreachable ∧
      spec_every_version_reachable exampleUnreachable = false := by
  constructor
  · decide
  · decide

/-- C1 (amended). Before persisting, the writer validates exactly spec invariants 1-5
(single root, parent references, head reference, branch-tip references, pairwise
distinct tips) and panics if and only if one of them is violated; invariants 6
(reachability from a branch tip) and 7 (Patch bases are Full ancestors) are not
checked. -/
theorem C1_writer_validates_five_invariants (d : RepositoryData) :
    write_data_file d = some d ↔
      (spec_exactly_one_root d = true ∧ spec_every_parent_exists d = true ∧
        spec_head_is_known d = true ∧ spec_branch_tips_are_known d = true ∧
        spec_no_two_branches_share_a_tip d = true) := by
  have h := valid_iff_five_invariants d
  unfold write_data_file
  by_cases hv : valid d = true
  · rw [if_pos hv]
    exact ⟨fun _ => h.mp hv, fun _ => rfl⟩
  · rw [if_neg hv]
    exact ⟨fun hcontra => absurd hcontra (by simp), fun hp => absurd (h.mpr hp) hv⟩

/-- C6. The biconditional fails on the length fast path: with the head recording length
`2` and hash `5`, a current file of length `1` and the same hash `5` makes
`has_uncommitted_changes` return `true` although the hashes are equal. -/
theorem C6_counterexample :
    has_uncommitted_changes exampleLenTwo 1 5 = some true ∧
      (head_version exampleLenTwo).map Version.versioned_file_xxh3_128 = some 5 := by
  constructor
  · decide
  · decide

/-- C6 (amended). `has_uncommitted_changes` returns true iff the file's size differs
from the head's recorded length or its XXH3-128 differs from the head's recorded hash;
this coincides with the hash-only biconditional of the claim exactly when equal hashes
imply equal lengths (no cross-length hash collision). -/
theorem C6_length_or_hash (d : RepositoryData) (hv : Version) (len h : Nat)
    (hhv : head_version d = some hv) :
    (has_uncommitted_changes d len h = some true ↔
        (len ≠ hv.versioned_file_length ∨ h ≠ hv.versioned_file_xxh3_128)) ∧
      ((h = hv.versioned_file_xxh3_128 → len = hv.versioned_file_length) →
        (has_uncommitted_changes d len h = some true ↔ h ≠ hv.versioned_file_xxh3_128)) := by
  unfold has_uncommitted_changes
  rw [hhv]
  constructor
  · by_cases hl : len = hv.versioned_file_length <;>
      by_cases hh : h = hv.versioned_file_xxh3_128 <;>
      simp [hl, hh, ne_comm]
  · intro hcol
    by_cases hl : len = hv.versioned_file_length <;>
      by_cases hh : h = hv.versioned_file_xxh3_128 <;>
      simp [hl, hh, ne_comm]
    exact hl (hcol hh)

/-- C6 witness: the amended equivalence evaluated on `exampleLenTwo` with a current file
of length `3` and hash `7`. -/
theorem C6_length_or_hash_witness :
    head_version exampleLenTwo = some (mkVersion 1 none .Full 2 5) ∧
      ((has_uncommitted_changes exampleLenTwo 3 7 = some true ↔
          (3 ≠ (mkVersion 1 none .Full 2 5).versioned_file_length ∨
            7 ≠ (mkVersion 1 none .Full 2 5).versioned_file_xxh3_128)) ∧
        ((7 = (mkVersion 1 none .Full 2 5).versioned_file_xxh3_128 →
            3 = (mkVersion 1 none .Full 2 5).versioned_file_length) →
          (has_uncommitted_changes exampleLenTwo 3 7 = some true ↔
            7 ≠ (mkVersion 1 none .Full 2 5).versioned_file_xxh3_128))) :=
  ⟨by decide, C6_length_or_hash exampleLenTwo (mkVersion 1 none .Full 2 5) 3 7 (by decide)⟩

/-- C9. A commit with an unchanged file (hash equal to the head version's hash) returns
`NothingToCommit` before the `BranchAlreadyExists` and `BranchRequired` checks (the
conclusion holds for every `new_branch` argument and also for a detached head), mutates
nothing, writes no blob, and does not rewrite the metadata document. -/
theorem C9_nothing_to_commit (d : RepositoryData) (b : Boundary)
    (new_branch description : Option String) (hv : Version)
    (hhv : head_version d = some hv)
    (hh : b.versioned_file_xxh3_128 = hv.versioned_file_xxh3_128) :
    commit_version d b new_branch description =
      ⟨.Returned .NothingToCommit, d, false, false⟩ := by
  unfold commit_version
  rw [hhv]
  simp [hh]

/-- C9 witness: committing `exampleSingle` with the unchanged-file boundary, passing a
`new_branch` that already exists (so the refusal indeed precedes
`BranchAlreadyExists`). -/
theorem C9_nothing_to_commit_witness :
    (head_version exampleSingle = some (mkVersion 1 none .Full 1 10) ∧
        exampleBoundaryUnchanged.versioned_file_xxh3_128 =
          (mkVersion 1 none .Full 1 10).versioned_file_xxh3_128 ∧
        contains_key exampleSingle.branches "main" = true) ∧
      commit_version exampleSingle exampleBoundaryUnchanged (some "main") (some "x") =
        ⟨.Returned .NothingToCommit, exampleSingle, false, false⟩ :=
  ⟨⟨by decide, by decide, by decide⟩,
    C9_nothing_to_commit exampleSingle exampleBoundaryUnchanged (some "main") (some "x")
      (mkVersion 1 none .Full 1 10) (by decide) (by decide)⟩

/-- C3. The blob-kind choice never consults the delta tool's readiness: on
`exampleSingle` with the tool unavailable, `commit_version` still chooses a Patch blob
for the new child (visible in the mutated in-memory data) and then fails with an I/O
error when `create_patch` cannot spawn the tool, instead of storing a Full blob. -/
theorem C3_commit_ignores_tool_readiness :
    exampleBoundaryNoTool.xdelta3_ready = false ∧
      (commit_version exampleSingle exampleBoundaryNoTool none none).exit = OpExit.IoError ∧
      ((commit_version exampleSingle exampleBoundaryNoTool none none).data.versions.map
          Version.content_blob_kind).getLast? = some (.Patch 1) ∧
      (commit_version exampleSingle exampleBoundaryNoTool none none).data_file_written
        = false := by
  refine ⟨by decide, by decide, by decide, by decide⟩

/-- C10. With no uncommitted changes and a target resolving to a version, restoring to
an output path that does not yet exist propagates an I/O error whenever the target is
Patch-stored (because `apply_patch` removes the output file first, and removing a
missing file fails), while a Full-stored target is restored by a plain copy. -/
theorem C10_restore_to_fresh_path (ready : Bool) (repository_dir : String)
    (d : RepositoryData) (target output versioned_file : String) (len h : Nat)
    (fs : FileSystem) (hv tv : Version)
    (hhv : head_version d = some hv)
    (hlen : len = hv.versioned_file_length)
    (hh : h = hv.versioned_file_xxh3_128)
    (hres : resolve_target d target = some (.Version tv))
    (hout : fs.contains output = false) :
    (∀ base, tv.content_blob_kind = .Patch base →
        restore ready repository_dir d target (some output) versioned_file len h fs =
          none) ∧
      (tv.content_blob_kind = .Full →
        fs.contains (file_path repository_dir tv.content_blob_file_name) = true →
        restore ready repository_dir d target (some output) versioned_file len h fs =
          some (.Ok, if fs.contains output then fs else fs ++ [output])) := by
  have hunc : has_uncommitted_changes d len h = some false := by
    unfold has_uncommitted_changes
    rw [hhv]
    simp [hlen, hh]
  have hout' : ¬ output ∈ fs := by simpa using hout
  constructor
  · intro base hk
    unfold restore
    rw [hunc, hres]
    simp only
    unfold write_version_content
    rw [hk]
    cases hb : version d base with
    | none => simp [hb]
    | some bv =>
      unfold apply_patch remove_file
      simp [hb, hout']
  · intro hk hblob
    have hblob' : file_path repository_dir tv.content_blob_file_name ∈ fs := by
      simpa using hblob
    unfold restore
    rw [hunc, hres]
    simp only
    unfold write_version_content
    rw [hk]
    unfold copy_file
    simp [hblob']

/-- C10 witness: on `exampleRestore`, restoring target `"3"` (the Patch-stored head) to
the fresh path `"out"` errors even though the delta tool is ready and both blobs
exist. -/
theorem C10_restore_to_fresh_path_witness :
    (head_version exampleRestore = some (mkVersion 2 (some 1) (.Patch 1) 6 60) ∧
        resolve_target exampleRestore "3" =
          some (.Version (mkVersion 2 (some 1) (.Patch 1) 6 60)) ∧
        exampleRestoreFs.contains "out" = false) ∧
      ((∀ base, (mkVersion 2 (some 1) (.Patch 1) 6 60).content_blob_kind = .Patch base →
          restore true "r" exampleRestore "3" (some "out") "f" 6 60 exampleRestoreFs =
            none) ∧
        ((mkVersion 2 (some 1) (.Patch 1) 6 60).content_blob_kind = .Full →
          exampleRestoreFs.contains
              (file_path "r" (mkVersion 2 (some 1) (.Patch 1) 6 60).content_blob_file_name)
            = true →
          restore true "r" exampleRestore "3" (some "out") "f" 6 60 exampleRestoreFs =
            some (.Ok,
              if exampleRestoreFs.contains "out" then exampleRestoreFs
              else exampleRestoreFs ++ ["out"]))) :=
  ⟨⟨by decide, by decide, by decide⟩,
    C10_restore_to_fresh_path true "r" exampleRestore "3" "out" "f" 6 60 exampleRestoreFs
      (mkVersion 2 (some 1) (.Patch 1) 6 60) (mkVersion 2 (some 1) (.Patch 1) 6 60)
      (by decide) (by decide) (by decide) (by decide) (by decide)⟩

/-- The mutating tail of a commit or amend leaves the already-mutated data in the
outcome no matter how the blob and metadata writes go. -/
theorem finish_with_blobs_data (ρ : Type) (b : Boundary) (d1 : RepositoryData)
    (kind : ContentBlobKind) (ok : ρ) :
    (finish_with_blobs ρ b d1 kind ok).data = d1 := by
  unfold finish_with_blobs
  cases kind with
  | Full => by_cases hv : valid d1 = true <;> simp [hv]
  | Patch base =>
    cases hb : version d1 base with
    | none => simp [hb]
    | some bv =>
      by_cases hr : b.xdelta3_ready = true <;> by_cases hv : valid d1 = true <;>
        simp [hb, hv, hr]

/-- The chosen blob kind for a child of `pid` is Full or a Patch based on `pid`
itself. -/
theorem content_blob_kind_cases (d : RepositoryData) (pid : VersionId) :
    content_blob_kind_for_child_of d pid = .Full ∨
      content_blob_kind_for_child_of d pid = .Patch pid := by
  unfold content_blob_kind_for_child_of
  by_cases h7 : MAX_CONSECUTIVE_PATCHES ≤ patch_run d d.versions.length pid + 1 <;>
    simp [h7]

/-- C2. The patch base chosen by `commit_version` is the direct parent, not the closest
Full ancestor: committing on `examplePatchChild` (whose head `2` is itself
Patch-stored) succeeds and appends a version whose blob is a Patch based on `2` — a
version whose own blob is a Patch — so the persisted data violates spec invariant 7. -/
theorem C2_counterexample :
    (commit_version examplePatchChild exampleBoundaryPatchChild none none).exit =
        OpExit.Returned CommitResult.Ok ∧
      ((commit_version examplePatchChild exampleBoundaryPatchChild none none).data.versions.map
          Version.content_blob_kind).getLast? = some (.Patch 2) ∧
      (version examplePatchChild 2).map Version.content_blob_kind = some (.Patch 1) ∧
      spec_patch_bases_are_full_ancestors
          (commit_version examplePatchChild exampleBoundaryPatchChild none none).data
        = false := by
  refine ⟨by decide, by decide, by decide, by decide⟩

/-- C2 (amended). Whenever `commit_version` or `amend_head` mutates the model, the
version it appends has a blob that is either Full or a Patch whose base is the direct
parent version (the head for a commit, the head's parent for an amend) — an ancestor,
but not necessarily one whose blob is Full. -/
theorem C2_patch_base_is_direct_parent (d : RepositoryData) (b : Boundary)
    (new_branch description : Option String) (hv : Version)
    (hhv : head_version d = some hv) :
    ((commit_version d b new_branch description).data = d ∨
        ∃ nv, (commit_version d b new_branch description).data.versions =
            d.versions ++ [nv] ∧
          nv.parent = some hv.id ∧
          (nv.content_blob_kind = .Full ∨ nv.content_blob_kind = .Patch hv.id)) ∧
      ((amend_head d b description).data = d ∨
        ∃ nv, (amend_head d b description).data.versions =
            (d.versions.filter fun v => v.id != hv.id) ++ [nv] ∧
          nv.parent = hv.parent ∧
          (nv.content_blob_kind = .Full ∨
            ∃ pid, hv.parent = some pid ∧ nv.content_blob_kind = .Patch pid)) := by
  constructor
  · unfold commit_version
    rw [hhv]
    dsimp only
    split
    · left; rfl
    · split
      · left; rfl
      · split
        · left; rfl
        · rw [finish_with_blobs_data]
          right
          exact ⟨_, rfl, rfl, content_blob_kind_cases d hv.id⟩
  · unfold amend_head
    rw [hhv]
    dsimp only
    split
    · left; rfl
    · split
      · left; rfl
      · split
        · left; rfl
        · split
          · rename_i parent_id hparent
            split
            · left; rfl
            · split
              · left; rfl
              · unfold amend_finish
                rw [finish_with_blobs_data]
                right
                refine ⟨_, rfl, rfl, ?_⟩
                rw [hparent]
                dsimp only
                rcases content_blob_kind_cases d parent_id with hc | hc
                · left; exact hc
                · right; exact ⟨parent_id, rfl, hc⟩
          · rename_i hparent
            unfold amend_finish
            rw [finish_with_blobs_data]
            right
            refine ⟨_, rfl, rfl, ?_⟩
            rw [hparent]
            left; rfl

/-- C2 witness: the amended statement evaluated on `examplePatchChild` with its head
version `2`. -/
theorem C2_patch_base_is_direct_parent_witness :
    head_version examplePatchChild = some (mkVersion 2 (some 1) (.Patch 1) 2 20) ∧
      (((commit_version examplePatchChild exampleBoundaryPatchChild none none).data =
            examplePatchChild ∨
          ∃ nv,
            (commit_version examplePatchChild exampleBoundaryPatchChild none
                    none).data.versions =
                examplePatchChild.versions ++ [nv] ∧
              nv.parent = some (mkVersion 2 (some 1) (.Patch 1) 2 20).id ∧
              (nv.content_blob_kind = .Full ∨
                nv.content_blob_kind = .Patch (mkVersion 2 (some 1) (.Patch 1) 2 20).id)) ∧
        ((amend_head examplePatchChild exampleBoundaryPatchChild none).data =
            examplePatchChild ∨
          ∃ nv,
            (amend_head examplePatchChild exampleBoundaryPatchChild none).data.versions =
                (examplePatchChild.versions.filter
                    fun v => v.id != (mkVersion 2 (some 1) (.Patch 1) 2 20).id) ++ [nv] ∧
              nv.parent = (mkVersion 2 (some 1) (.Patch 1) 2 20).parent ∧
              (nv.content_blob_kind = .Full ∨
                ∃ pid, (mkVersion 2 (some 1) (.Patch 1) 2 20).parent = some pid ∧
                  nv.content_blob_kind = .Patch pid))) :=
  ⟨by decide,
    C2_patch_base_is_direct_parent examplePatchChild exampleBoundaryPatchChild none none
      (mkVersion 2 (some 1) (.Patch 1) 2 20) (by decide)⟩

/-- A key missing from the association-list map is not found by `List.lookup`. -/
theorem lookup_none_of_contains_key_false (m : List (String × VersionId)) (k : String)
    (h : contains_key m k = false) : List.lookup k m = none := by
  induction m with
  | nil => rfl
  | cons kv rest ih =>
    simp only [contains_key, List.any_cons, Bool.or_eq_false_iff] at h
    have ih' := ih (by simp only [contains_key]; exact h.2)
    obtain ⟨k1, v1⟩ := kv
    simp only [List.lookup]
    have hne : (k1 == k) = false := h.1
    have hne' : (k == k1) = false := by
      rw [beq_eq_false_iff_ne] at hne ⊢
      exact hne.symm
    rw [hne']
    exact ih'

/-- Removing a key from the association-list map removes every pair carrying it. -/
theorem contains_key_map_remove (m : List (String × VersionId)) (k : String) :
    contains_key (map_remove m k) k = false := by
  induction m with
  | nil => rfl
  | cons kv rest ih =>
    simp only [map_remove, List.filter] at ih ⊢
    cases hk : (kv.1 != k) with
    | false => exact ih
    | true =>
      simp only [contains_key, List.any_cons, Bool.or_eq_false_iff]
      refine ⟨?_, ih⟩
      simpa [bne] using hk

/-- C4. With the head on branch `a` whose tip is also reachable from branch `b`,
`delete_branch a` does not return `CannotDeleteHead`: the erased set is empty, the
branch is removed, and the writer's validity check panics on the now dangling head. -/
theorem C4_counterexample :
    exampleHeadBranchCovered.head = Head.Branch "a" ∧
      contains_key exampleHeadBranchCovered.branches "a" = true ∧
      (delete_branch exampleHeadBranchCovered "a").exit = OpExit.Panicked := by
  refine ⟨by decide, by decide, by decide⟩

/-- C4 (amended). When the head is `Branch(name)`, `delete_branch(name)` never returns
`Ok`: it either returns the `CannotDeleteHead` refusal with the data unchanged (when
the branch tip lies in the erased set) or, when the tip is still reachable from another
branch, removes the branch and panics in the writer's validity check, so nothing is
persisted; and whenever `delete_branch` does return `Ok`, the resulting data passes
`valid`, whose head check makes a branch head reference an existing branch. -/
theorem C4_delete_head_branch (d : RepositoryData) (name : String) (hv : Version)
    (hhead : d.head = Head.Branch name)
    (hhv : head_version d = some hv) :
    (delete_branch d name = ⟨.Returned .CannotDeleteHead, d, false, false⟩ ∨
        ((delete_branch d name).exit = OpExit.Panicked ∧
          (delete_branch d name).data_file_written = false)) ∧
      (∀ (e : RepositoryData) (n : String),
        (delete_branch e n).exit = .Returned DeleteBranchResult.Ok →
          valid (delete_branch e n).data = true) := by
  constructor
  · have hcont : contains_key d.branches name = true := by
      by_contra hc
      have hc' : contains_key d.branches name = false := by
        cases h : contains_key d.branches name with
        | false => rfl
        | true => exact absurd h hc
      have hlk := lookup_none_of_contains_key_false d.branches name hc'
      unfold head_version at hhv
      rw [hhead] at hhv
      dsimp only at hhv
      rw [hlk] at hhv
      simp at hhv
    have hlk : ∃ tip, List.lookup name d.branches = some tip := by
      unfold head_version at hhv
      rw [hhead] at hhv
      dsimp only at hhv
      cases hl : List.lookup name d.branches with
      | none => rw [hl] at hhv; simp at hhv
      | some tip => exact ⟨tip, rfl⟩
    obtain ⟨tip, htip⟩ := hlk
    unfold delete_branch
    split
    · rename_i hx
      rw [hcont] at hx
      simp at hx
    · rw [htip]
      dsimp only
      rw [hhv]
      dsimp only
      split
      · left; rfl
      · right
        have hvalidfalse :
            valid { head := d.head, branches := map_remove d.branches name,
                    versions := d.versions.filter fun v =>
                      !(((ancestor_chain d d.versions.length tip).map Version.id).takeWhile
                          (fun id =>
                            !((versions_on_other_branches d name).contains id))).contains
                        v.id } = false := by
          unfold valid
          rw [hhead]
          dsimp only
          rw [contains_key_map_remove]
          simp
        rw [hvalidfalse]
        exact ⟨rfl, rfl⟩
  · intro e n
    unfold delete_branch
    split
    · intro hcontra; simp at hcontra
    · split
      · intro hcontra; simp at hcontra
      · split
        · intro hcontra; simp at hcontra
        · dsimp only
          split
          · intro hcontra; simp at hcontra
          · split
            · rename_i hval
              intro _
              exact hval
            · intro hcontra; simp at hcontra

/-- C4 witness: on `exampleHeadBranchExclusive` (head on `a`, whose tip only `a`
reaches) the amended statement applies and `delete_branch a` indeed returns
`CannotDeleteHead` unchanged. -/
theorem C4_delete_head_branch_witness :
    (exampleHeadBranchExclusive.head = Head.Branch "a" ∧
        head_version exampleHeadBranchExclusive = some (mkVersion 2 (some 1) .Full 2 20)) ∧
      ((delete_branch exampleHeadBranchExclusive "a" =
            ⟨.Returned .CannotDeleteHead, exampleHeadBranchExclusive, false, false⟩ ∨
          ((delete_branch exampleHeadBranchExclusive "a").exit = OpExit.Panicked ∧
            (delete_branch exampleHeadBranchExclusive "a").data_file_written = false)) ∧
        (∀ (e : RepositoryData) (n : String),
          (delete_branch e n).exit = .Returned DeleteBranchResult.Ok →
            valid (delete_branch e n).data = true)) :=
  ⟨⟨by decide, by decide⟩,
    C4_delete_head_branch exampleHeadBranchExclusive "a" (mkVersion 2 (some 1) .Full 2 20)
      (by decide) (by decide)⟩

/-- C7. For every non-empty target string, the resolver answers `Branch(S)` exactly when
`S` names an existing branch: the branch rule runs first and no later rule (version id,
offset, nickname) can produce a `Branch` result, so a branch name wins even over a
matching nickname. -/
theorem C7_branch_name_precedence (d : RepositoryData) (s : String) (hs : s ≠ "") :
    resolve_target d s = some (.Branch s) ↔ contains_key d.branches s = true := by
  have hsl : s.toList.isEmpty = false := by
    cases hsl : s.toList with
    | nil =>
      exact absurd (String.ext (hsl.trans rfl)) hs
    | cons c cs => rfl
  unfold resolve_target
  rw [hsl]
  by_cases hb : contains_key d.branches s = true
  · simp [hb]
  · have hb' : contains_key d.branches s = false := by
      cases h : contains_key d.branches s with
      | false => rfl
      | true => exact absurd h hb
    simp only [hb', Bool.false_eq_true, if_false]
    constructor
    · intro hcontra
      split at hcontra
      · simp at hcontra
      · split at hcontra
        · cases hh : head_version d with
          | none => rw [hh] at hcontra; simp at hcontra
          | some hv => rw [hh] at hcontra; simp at hcontra
        · split at hcontra
          · split at hcontra
            · simp at hcontra
            · split at hcontra
              · simp at hcontra
              · simp at hcontra
          · split at hcontra
            · simp at hcontra
            · simp at hcontra
    · intro hcontra
      exact hcontra.elim

/-! Ancestor-chain infrastructure: fuel monotonicity, stabilisation, and congruence
under the mutations of `commit_version`, `amend_head` and `reset`. -/

/-- Appending a version with a fresh id does not change lookups of other ids. -/
theorem find_id_append_ne (l : List Version) (nv : Version) (id : VersionId)
    (hne : id ≠ nv.id) :
    (l ++ [nv]).find? (fun v => v.id == id) = l.find? (fun v => v.id == id) := by
  induction l with
  | nil =>
    have : (nv.id == id) = false := by
      rw [beq_eq_false_iff_ne]
      exact fun h => hne h.symm
    simp [List.find?, this]
  | cons a l ih =>
    cases hp : (a.id == id) with
    | true => simp [List.find?, hp]
    | false => simp [List.find?, hp, ih]

/-- An appended version with an id unused in the prefix is found by its own id. -/
theorem find_id_append_self (l : List Version) (nv : Version)
    (h : ∀ v ∈ l, v.id ≠ nv.id) :
    (l ++ [nv]).find? (fun v => v.id == nv.id) = some nv := by
  induction l with
  | nil => simp [List.find?]
  | cons a l ih =>
    have ha : (a.id == nv.id) = false := by
      rw [beq_eq_false_iff_ne]
      exact h a (List.mem_cons_self a l)
    simp only [List.cons_append, List.find?]
    rw [ha]
    exact ih fun v hv => h v (List.mem_cons_of_mem a hv)

/-- Filtering out the versions with id `hid` does not change lookups of other ids. -/
theorem find_id_filter_ne (l : List Version) (hid id : VersionId) (hne : id ≠ hid) :
    (l.filter fun v => v.id != hid).find? (fun v => v.id == id) =
      l.find? (fun v => v.id == id) := by
  induction l with
  | nil => rfl
  | cons a l ih =>
    cases hp : (a.id == id) with
    | true =>
      have hka : (a.id != hid) = true := by
        have ha : a.id = id := beq_iff_eq.mp hp
        rw [bne_iff_ne, ha]
        exact hne
      simp [List.filter_cons, hka, List.find?, hp]
    | false =>
      cases hka : (a.id != hid) with
      | true => simp [List.filter_cons, hka, List.find?, hp, ih]
      | false => simp [List.filter_cons, hka, ih, List.find?, hp]

/-- After filtering out the versions with id `hid`, that id is not found. -/
theorem find_id_filter_self (l : List Version) (hid : VersionId) :
    (l.filter fun v => v.id != hid).find? (fun v => v.id == hid) = none := by
  induction l with
  | nil => rfl
  | cons a l ih =>
    cases hka : (a.id != hid) with
    | true =>
      have : (a.id == hid) = false := by
        rw [beq_eq_false_iff_ne]
        exact bne_iff_ne.mp hka
      simp [List.filter_cons, hka, List.find?, this, ih]
    | false => simp [List.filter_cons, hka, ih]

/-- A successful version lookup returns a stored version. -/
theorem version_mem (d : RepositoryData) (id : VersionId) (v : Version)
    (h : version d id = some v) : v ∈ d.versions := by
  unfold version at h
  exact List.mem_of_find?_eq_some h

/-- A successful version lookup returns a version carrying the looked-up id. -/
theorem version_id_eq (d : RepositoryData) (id : VersionId) (v : Version)
    (h : version d id = some v) : v.id = id := by
  unfold version at h
  have h2 := List.find?_some h
  exact beq_iff_eq.mp h2

/-- With pairwise distinct ids, every stored version is found by its id. -/
theorem find_id_of_mem_nodup (l : List Version) (hids : (l.map Version.id).Nodup)
    (v : Version) (hv : v ∈ l) : l.find? (fun w => w.id == v.id) = some v := by
  induction l with
  | nil => cases hv
  | cons a l ih =>
    rw [List.map_cons, List.nodup_cons] at hids
    rcases List.mem_cons.mp hv with heq | hmem
    · subst heq
      simp [List.find?]
    · have hne : (a.id == v.id) = false := by
        rw [beq_eq_false_iff_ne]
        intro hcontra
        exact hids.1 (hcontra ▸ List.mem_map_of_mem Version.id hmem)
      simp only [List.find?, hne]
      exact ih hids.2 hmem

/-- With pairwise distinct ids, `version` inverts membership. -/
theorem version_of_mem_nodup (d : RepositoryData)
    (hids : (d.versions.map Version.id).Nodup) (v : Version) (hv : v ∈ d.versions) :
    version d v.id = some v :=
  find_id_of_mem_nodup d.versions hids v hv

/-- The head version is a stored version. -/
theorem head_version_mem (d : RepositoryData) (hv : Version)
    (h : head_version d = some hv) : hv ∈ d.versions := by
  unfold head_version at h
  cases hh : d.head with
  | Branch b =>
    rw [hh] at h
    dsimp only at h
    cases hl : List.lookup b d.branches with
    | none => rw [hl] at h; simp at h
    | some id =>
      rw [hl] at h
      simp only [Option.some_bind] at h
      exact version_mem d id hv h
  | Version id =>
    rw [hh] at h
    dsimp only at h
    exact version_mem d id hv h

/-- A chain from an unresolvable id is empty at every fuel. -/
theorem chain_nil_of_version_none (d : RepositoryData) (f : Nat) (id : VersionId)
    (h : version d id = none) : ancestor_chain d f id = [] := by
  cases f with
  | zero => rfl
  | succ f => unfold ancestor_chain; rw [h]

/-- Less fuel yields a prefix of the same chain. -/
theorem chain_take (d : RepositoryData) :
    ∀ (f f' : Nat) (id : VersionId), f ≤ f' →
      ancestor_chain d f id = (ancestor_chain d f' id).take f := by
  intro f
  induction f with
  | zero => intro f' id _; simp [ancestor_chain]
  | succ f ih =>
    intro f' id hle
    cases f' with
    | zero => omega
    | succ f'' =>
      unfold ancestor_chain
      cases hv : version d id with
      | none => simp
      | some v =>
        dsimp only
        cases hp : v.parent with
        | none => simp
        | some p =>
          dsimp only
          simp only [List.take_succ_cons, List.cons.injEq, true_and]
          exact ih f'' p (Nat.le_of_succ_le_succ hle)

/-- A chain that ended before its fuel ran out never grows with more fuel. -/
theorem chain_ext (d : RepositoryData) :
    ∀ (f : Nat) (id : VersionId), (ancestor_chain d f id).length < f →
      ∀ f', f ≤ f' → ancestor_chain d f' id = ancestor_chain d f id := by
  intro f
  induction f with
  | zero => intro id h; exact absurd h (Nat.not_lt_zero _)
  | succ f ih =>
    intro id hlen f' hle
    cases f' with
    | zero => omega
    | succ f'' =>
      have hle'' : f ≤ f'' := Nat.le_of_succ_le_succ hle
      unfold ancestor_chain at hlen ⊢
      cases hv : version d id with
      | none => rfl
      | some v =>
        rw [hv] at hlen
        dsimp only at hlen ⊢
        cases hp : v.parent with
        | none => rfl
        | some p =>
          rw [hp] at hlen
          dsimp only at hlen ⊢
          simp only [List.cons.injEq, true_and]
          refine ih p ?_ f'' hle''
          simpa using hlen

/-- Under `stable_chains`, every fuel of at least `versions.length` yields the same
chain. -/
theorem chain_stable_eq (d : RepositoryData) (hst : stable_chains d) (f : Nat)
    (id : VersionId) (hf : d.versions.length ≤ f) :
    ancestor_chain d f id = ancestor_chain d d.versions.length id := by
  have hlen := hst id
  have hsmall : ancestor_chain d d.versions.length id =
      ancestor_chain d (d.versions.length + 1) id := by
    rw [chain_take d d.versions.length (d.versions.length + 1) id (Nat.le_succ _)]
    exact List.take_of_length_le hlen
  rcases Nat.eq_or_lt_of_le hf with heq | hlt
  · rw [← heq]
  · rw [chain_ext d (d.versions.length + 1) id (Nat.lt_succ_of_le hlen) f hlt, hsmall]

/-- `takeWhile` and `take` commute. -/
theorem takeWhile_take_comm (p : Version → Bool) :
    ∀ (l : List Version) (n : Nat), (l.take n).takeWhile p = (l.takeWhile p).take n := by
  intro l
  induction l with
  | nil => intro n; simp
  | cons a l ih =>
    intro n
    cases n with
    | zero => simp
    | succ n =>
      simp only [List.take_succ_cons]
      cases hp : p a with
      | true => simp [List.takeWhile_cons, hp, ih]
      | false => simp [List.takeWhile_cons, hp]

/-- The fuel actually used by the source (`versions.length`) maximises the
consecutive-patch count. -/
theorem patch_run_le_len_run (d : RepositoryData) (hst : stable_chains d) (f : Nat)
    (id : VersionId) : patch_run d f id ≤ patch_run d d.versions.length id := by
  unfold patch_run
  rcases Nat.le_total f d.versions.length with hf | hf
  · rw [chain_take d f d.versions.length id hf, takeWhile_take_comm]
    exact (List.take_sublist f _).length_le
  · rw [chain_stable_eq d hst f id hf]

/-- Chains of pre-existing ids are unchanged when a fresh version is appended. -/
theorem chain_append_fresh (d d' : RepositoryData) (nv : Version)
    (happ : d'.versions = d.versions ++ [nv])
    (hfr : ∀ v ∈ d.versions, v.id ≠ nv.id ∧ v.parent ≠ some nv.id) :
    ∀ (f : Nat) (id : VersionId), id ≠ nv.id →
      ancestor_chain d' f id = ancestor_chain d f id := by
  intro f
  induction f with
  | zero => intro id _; rfl
  | succ f ih =>
    intro id hne
    have hver : version d' id = version d id := by
      unfold version
      rw [happ]
      exact find_id_append_ne d.versions nv id hne
    unfold ancestor_chain
    rw [hver]
    cases hv : version d id with
    | none => rfl
    | some v =>
      dsimp only
      cases hp : v.parent with
      | none => rfl
      | some p =>
        dsimp only
        have hvmem := version_mem d id v hv
        have hpne : p ≠ nv.id := by
          intro hcontra
          exact (hfr v hvmem).2 (by rw [hp, hcontra])
        simp only [List.cons.injEq, true_and]
        exact ih p hpne

/-- Chains of surviving ids are unchanged when a childless version is swapped for a
fresh one (the `amend_head` mutation). -/
theorem chain_filter_append (d d' : RepositoryData) (hid : VersionId) (nv : Version)
    (happ : d'.versions = (d.versions.filter fun v => v.id != hid) ++ [nv])
    (hfr : ∀ v ∈ d.versions, v.id ≠ nv.id ∧ v.parent ≠ some nv.id)
    (hch : ∀ v ∈ d.versions, v.parent ≠ some hid) :
    ∀ (f : Nat) (id : VersionId), id ≠ nv.id → id ≠ hid →
      ancestor_chain d' f id = ancestor_chain d f id := by
  intro f
  induction f with
  | zero => intro id _ _; rfl
  | succ f ih =>
    intro id hne hnh
    have hver : version d' id = version d id := by
      unfold version
      rw [happ, find_id_append_ne _ nv id hne]
      exact find_id_filter_ne d.versions hid id hnh
    unfold ancestor_chain
    rw [hver]
    cases hv : version d id with
    | none => rfl
    | some v =>
      dsimp only
      cases hp : v.parent with
      | none => rfl
      | some p =>
        dsimp only
        have hvmem := version_mem d id v hv
        have hpne : p ≠ nv.id := by
          intro hcontra
          exact (hfr v hvmem).2 (by rw [hp, hcontra])
        have hpnh : p ≠ hid := by
          intro hcontra
          exact hch v hvmem (by rw [hp, hcontra])
        simp only [List.cons.injEq, true_and]
        exact ih p hpne hpnh

/-- One step of the ancestor chain. -/
theorem chain_succ_some (d : RepositoryData) (f : Nat) (id : VersionId) (v : Version)
    (h : version d id = some v) :
    ancestor_chain d (f + 1) id =
      v :: (match v.parent with
            | none => []
            | some p => ancestor_chain d f p) := by
  conv_lhs => unfold ancestor_chain
  rw [h]

/-- One step of the consecutive-patch count. -/
theorem patch_run_succ_some (d : RepositoryData) (f : Nat) (id : VersionId)
    (v : Version) (h : version d id = some v) :
    patch_run d (f + 1) id =
      if v.content_blob_kind.is_patch then
        1 + (match v.parent with
             | none => 0
             | some p => patch_run d f p)
      else 0 := by
  unfold patch_run
  rw [chain_succ_some d f id v h]
  cases hp : v.parent with
  | none =>
    dsimp only
    cases hk : v.content_blob_kind.is_patch <;> simp [List.takeWhile_cons, hk]
  | some p =>
    dsimp only
    cases hk : v.content_blob_kind.is_patch <;>
      simp [List.takeWhile_cons, hk, patch_run, Nat.add_comm]

/-- A fuel-zero count is zero. -/
theorem patch_run_zero (d : RepositoryData) (id : VersionId) : patch_run d 0 id = 0 := by
  rfl

/-- Ancestor-chain elements are stored versions. -/
theorem chain_subset_versions (d : RepositoryData) :
    ∀ (f : Nat) (id : VersionId), ∀ w ∈ ancestor_chain d f id, w ∈ d.versions := by
  intro f
  induction f with
  | zero => intro id w hw; cases hw
  | succ f ih =>
    intro id w hw
    cases hv : version d id with
    | none => rw [chain_nil_of_version_none d (f + 1) id hv] at hw; cases hw
    | some v =>
      rw [chain_succ_some d f id v hv] at hw
      rcases List.mem_cons.mp hw with heq | hmem
      · exact heq ▸ version_mem d id v hv
      · cases hp : v.parent with
        | none => rw [hp] at hmem; cases hmem
        | some p =>
          rw [hp] at hmem
          exact ih p w hmem

/-- The chain starts at the version the starting id resolves to. -/
theorem chain_get?_zero (d : RepositoryData) (f : Nat) (id : VersionId) (v : Version)
    (hf : 0 < f) (hv : version d id = some v) :
    (ancestor_chain d f id).get? 0 = some v := by
  cases f with
  | zero => omega
  | succ f => rw [chain_succ_some d f id v hv]; rfl

/-- Inside a naturally terminated chain, a member whose parent resolves has that parent
as its successor. -/
theorem chain_get?_succ_of_parent (d : RepositoryData) :
    ∀ (f : Nat) (id : VersionId), (ancestor_chain d f id).length < f →
      ∀ (j : Nat) (w : Version) (p : VersionId) (u : Version),
        (ancestor_chain d f id).get? j = some w →
        w.parent = some p →
        version d p = some u →
        (ancestor_chain d f id).get? (j + 1) = some u := by
  intro f
  induction f with
  | zero =>
    intro id hlen
    exact absurd hlen (Nat.not_lt_zero _)
  | succ f ih =>
    intro id hlen j w p u hj hp hu
    cases hv : version d id with
    | none => rw [chain_nil_of_version_none d (f + 1) id hv] at hj; cases hj
    | some v =>
      rw [chain_succ_some d f id v hv] at hj hlen ⊢
      cases j with
      | zero =>
        simp only [List.get?_cons_zero] at hj
        have hw : w = v := (Option.some_inj.mp hj).symm
        subst hw
        rw [hp] at hlen ⊢
        dsimp only at hlen ⊢
        cases f with
        | zero =>
          simp [ancestor_chain] at hlen
        | succ f' =>
          simp only [List.get?_cons_succ]
          rw [chain_succ_some d f' p u hu]
          rfl
      | succ j' =>
        cases hpv : v.parent with
        | none =>
          rw [hpv] at hj
          dsimp only at hj
          simp only [List.get?_cons_succ, List.get?_nil] at hj
          cases hj
        | some pv =>
          rw [hpv] at hj hlen
          dsimp only at hj hlen ⊢
          simp only [List.get?_cons_succ] at hj ⊢
          refine ih pv ?_ j' w p u hj hp hu
          simp only [List.length_cons] at hlen
          omega

/-- Consecutive chain members are linked by `parent`. -/
theorem chain_get?_parent (d : RepositoryData) :
    ∀ (f : Nat) (id : VersionId) (j : Nat) (w w' : Version),
      (ancestor_chain d f id).get? j = some w →
      (ancestor_chain d f id).get? (j + 1) = some w' →
      w.parent = some w'.id := by
  intro f
  induction f with
  | zero => intro id j w w' hj; cases hj
  | succ f ih =>
    intro id j w w' hj hj'
    cases hv : version d id with
    | none => rw [chain_nil_of_version_none d (f + 1) id hv] at hj; cases hj
    | some v =>
      rw [chain_succ_some d f id v hv] at hj hj'
      cases j with
      | zero =>
        simp only [List.get?_cons_zero] at hj
        have hw : w = v := (Option.some_inj.mp hj).symm
        subst hw
        cases hpv : w.parent with
        | none =>
          rw [hpv] at hj'
          dsimp only at hj'
          simp only [List.get?_cons_succ, List.get?_nil] at hj'
          cases hj'
        | some pv =>
          rw [hpv] at hj'
          dsimp only at hj'
          simp only [List.get?_cons_succ] at hj'
          cases f with
          | zero => cases hj'
          | succ f' =>
            cases hu : version d pv with
            | none => rw [chain_nil_of_version_none d (f' + 1) pv hu] at hj'; cases hj'
            | some u =>
              rw [chain_succ_some d f' pv u hu] at hj'
              simp only [List.get?_cons_zero] at hj'
              have hwu : u = w' := Option.some_inj.mp hj'
              rw [← hwu]
              rw [version_id_eq d pv u hu]
      | succ j' =>
        cases hpv : v.parent with
        | none =>
          rw [hpv] at hj
          dsimp only at hj
          simp only [List.get?_cons_succ, List.get?_nil] at hj
          cases hj
        | some pv =>
          rw [hpv] at hj hj'
          dsimp only at hj hj'
          simp only [List.get?_cons_succ] at hj hj'
          exact ih pv j' w w' hj hj'

/-- Two distinct members force length at least two. -/
theorem two_le_length_of_mem_ne (l : List Version) (a b : Version) (ha : a ∈ l)
    (hb : b ∈ l) (hne : b ≠ a) : 2 ≤ l.length := by
  cases l with
  | nil => cases ha
  | cons x xs =>
    cases xs with
    | nil =>
      rcases List.mem_singleton.mp ha with rfl
      rcases List.mem_singleton.mp hb with rfl
      exact absurd rfl hne
    | cons y ys =>
      simp only [List.length_cons]
      omega

/-- In a duplicate-free list of length at least two, every member has a distinct
companion. -/
theorem exists_mem_ne_of_two_le (l : List Version) (hnd : l.Nodup) (a : Version)
    (ha : a ∈ l) (h2 : 2 ≤ l.length) : ∃ b ∈ l, b ≠ a := by
  cases l with
  | nil => cases ha
  | cons x xs =>
    cases xs with
    | nil =>
      simp only [List.length_singleton] at h2
      omega
    | cons y ys =>
      rw [List.nodup_cons] at hnd
      rcases List.mem_cons.mp ha with rfl | hmem
      · refine ⟨y, List.mem_cons_of_mem _ (List.mem_cons_self y ys), ?_⟩
        intro hcontra
        apply hnd.1
        rw [← hcontra]
        exact List.mem_cons_self y ys
      · refine ⟨x, List.mem_cons_self x (y :: ys), ?_⟩
        intro hcontra
        apply hnd.1
        rw [hcontra]
        exact hmem

/-- `takeWhile` never lengthens a list. -/
theorem takeWhile_length_le (p : Version → Bool) (l : List Version) :
    (l.takeWhile p).length ≤ l.length := by
  induction l with
  | nil => simp
  | cons a l ih =>
    rw [List.takeWhile_cons]
    cases p a <;> simp <;> omega

/-- `takeWhile` is the prefix of its own length. -/
theorem takeWhile_eq_take (p : Version → Bool) (l : List Version) :
    l.takeWhile p = l.take (l.takeWhile p).length := by
  induction l with
  | nil => simp
  | cons a l ih =>
    rw [List.takeWhile_cons]
    cases p a with
    | false => simp
    | true =>
      simp only [if_true, List.length_cons, List.take_succ_cons, List.cons.injEq, true_and]
      exact ih

/-- The two readings of the reset orphan check agree: an erased version other than the
head has at least two children exactly when it has a child outside the erased prefix,
because its unique child inside the prefix is its chain predecessor (the head has no
children at all here). -/
theorem erased_orphan_iff (d : RepositoryData) (hv : Version) (n : Nat)
    (hids : (d.versions.map Version.id).Nodup)
    (hst : stable_chains d)
    (hhv : head_version d = some hv)
    (hnd : ((ancestor_chain d d.versions.length hv.id).map Version.id).Nodup)
    (hnochild : iter_children d hv.id = []) :
    ((∃ v ∈ (ancestor_chain d d.versions.length hv.id).take n,
        2 ≤ (iter_children d v.id).length) ↔
      (∃ v ∈ (ancestor_chain d d.versions.length hv.id).take n,
        ∃ w ∈ iter_children d v.id,
          w ∉ (ancestor_chain d d.versions.length hv.id).take n)) := by
  have hvmem : hv ∈ d.versions := head_version_mem d hv hhv
  have hvlook : version d hv.id = some hv := version_of_mem_nodup d hids hv hvmem
  have hlenpos : 0 < d.versions.length := List.length_pos.mpr (List.ne_nil_of_mem hvmem)
  set ch := ancestor_chain d d.versions.length hv.id with hch
  have hceq : ancestor_chain d (d.versions.length + 1) hv.id = ch :=
    chain_stable_eq d hst (d.versions.length + 1) hv.id (Nat.le_succ _)
  have hclen : ch.length < d.versions.length + 1 := by
    rw [← hceq]
    exact Nat.lt_succ_of_le (hst hv.id)
  have hchsub : ∀ w ∈ ch, w ∈ d.versions := fun w hw =>
    chain_subset_versions d d.versions.length hv.id w hw
  have h0 : ch.get? 0 = some hv := chain_get?_zero d d.versions.length hv.id hv hlenpos hvlook
  have hEmem : ∀ v : Version, v ∈ ch.take n ↔ ∃ j, j < n ∧ ch.get? j = some v := by
    intro v
    constructor
    · intro hvE
      obtain ⟨j, hj⟩ := List.mem_iff_get?.mp hvE
      have hjlt := (List.get?_eq_some.mp hj).1
      rw [List.length_take] at hjlt
      have hjn : j < n := by omega
      refine ⟨j, hjn, ?_⟩
      rw [← List.get?_take hjn]
      exact hj
    · rintro ⟨j, hjn, hj⟩
      have hj' : (ch.take n).get? j = some v := by
        rw [List.get?_take hjn]
        exact hj
      exact List.get?_mem hj'
  have hpred : ∀ (j : Nat) (v : Version), ch.get? (j + 1) = some v →
      ∃ u, ch.get? j = some u ∧ u ∈ iter_children d v.id := by
    intro j v hjv
    have hjlt := (List.get?_eq_some.mp hjv).1
    obtain ⟨u, hu⟩ : ∃ u, ch.get? j = some u := by
      cases hg : ch.get? j with
      | none =>
        rw [List.get?_eq_none] at hg
        omega
      | some u => exact ⟨u, rfl⟩
    have hpar : u.parent = some v.id :=
      chain_get?_parent d d.versions.length hv.id j u v hu hjv
    refine ⟨u, hu, ?_⟩
    unfold iter_children
    rw [List.mem_filter]
    refine ⟨hchsub u (List.get?_mem hu), ?_⟩
    rw [hpar]
    exact beq_self_eq_true _
  have hstep : ∀ (k : Nat) (w pv : Version), ch.get? k = some w →
      w.parent = some pv.id → version d pv.id = some pv → ch.get? (k + 1) = some pv := by
    intro k w pv hk hpw hpv
    have h1 : (ancestor_chain d (d.versions.length + 1) hv.id).get? k = some w := by
      rw [hceq]
      exact hk
    have h2 := chain_get?_succ_of_parent d (d.versions.length + 1) hv.id
      (by rw [hceq]; exact hclen) k w pv.id pv h1 hpw hpv
    rw [hceq] at h2
    exact h2
  have hinj : ∀ (i j : Nat) (a b : Version), ch.get? i = some a → ch.get? j = some b →
      a.id = b.id → i = j := by
    intro i j a b hi hj hab
    have h1 : (ch.map Version.id).get? i = some a.id := by
      rw [List.get?_map, hi]
      rfl
    have h2 : (ch.map Version.id).get? j = some b.id := by
      rw [List.get?_map, hj]
      rfl
    have hlt := (List.get?_eq_some.mp h1).1
    exact List.get?_inj hlt hnd (by rw [h1, h2, hab])
  constructor
  · rintro ⟨v, hvE, h2⟩
    obtain ⟨j, hjn, hj⟩ := (hEmem v).mp hvE
    cases j with
    | zero =>
      have hveq : hv = v := Option.some_inj.mp (h0.symm.trans hj)
      rw [← hveq, hnochild] at h2
      simp at h2
    | succ j' =>
      obtain ⟨u, hu, huchild⟩ := hpred j' v hj
      have huE : u ∈ ch.take n := (hEmem u).mpr ⟨j', by omega, hu⟩
      have hversnd : d.versions.Nodup := hids.of_map
      have hchildnd : (iter_children d v.id).Nodup := by
        unfold iter_children
        exact hversnd.filter _
      obtain ⟨w, hwchild, hwne⟩ := exists_mem_ne_of_two_le _ hchildnd u huchild h2
      refine ⟨v, hvE, w, hwchild, ?_⟩
      intro hwE
      obtain ⟨k, hkn, hk⟩ := (hEmem w).mp hwE
      have hwpar : w.parent = some v.id := by
        unfold iter_children at hwchild
        have hb := (List.mem_filter.mp hwchild).2
        exact beq_iff_eq.mp hb
      have hvmem2 : v ∈ d.versions := hchsub v (List.get?_mem hj)
      have hvlook2 : version d v.id = some v := version_of_mem_nodup d hids v hvmem2
      have hknext : ch.get? (k + 1) = some v := hstep k w v hk hwpar hvlook2
      have hkeq : k + 1 = j' + 1 := hinj (k + 1) (j' + 1) v v hknext hj rfl
      have hkj : k = j' := by omega
      rw [hkj] at hk
      exact hwne (Option.some_inj.mp (hu.symm.trans hk)).symm
  · rintro ⟨v, hvE, w, hwchild, hwnotE⟩
    obtain ⟨j, hjn, hj⟩ := (hEmem v).mp hvE
    cases j with
    | zero =>
      have hveq : hv = v := Option.some_inj.mp (h0.symm.trans hj)
      rw [← hveq, hnochild] at hwchild
      cases hwchild
    | succ j' =>
      obtain ⟨u, hu, huchild⟩ := hpred j' v hj
      have huE : u ∈ ch.take n := (hEmem u).mpr ⟨j', by omega, hu⟩
      have hwneu : w ≠ u := fun h => hwnotE (h ▸ huE)
      exact ⟨v, hvE, two_le_length_of_mem_ne _ u w huchild hwchild hwneu⟩

/-- The chosen child kind is a Patch exactly below the consecutive-patch limit. -/
theorem content_blob_kind_patch_iff (d : RepositoryData) (pid : VersionId) :
    (content_blob_kind_for_child_of d pid).is_patch = true ↔
      patch_run d d.versions.length pid + 1 < MAX_CONSECUTIVE_PATCHES := by
  unfold content_blob_kind_for_child_of
  by_cases h : MAX_CONSECUTIVE_PATCHES ≤ patch_run d d.versions.length pid + 1 <;>
    simp [h, ContentBlobKind.is_patch] <;> omega

/-- Appending a fresh version whose Patch choice respected the limit preserves the
patch-chain bound (the `commit_version` mutation shape). -/
theorem patch_chain_bounded_append (d d' : RepositoryData) (nv : Version)
    (happ : d'.versions = d.versions ++ [nv])
    (hfr : ∀ v ∈ d.versions, v.id ≠ nv.id ∧ v.parent ≠ some nv.id)
    (hst : stable_chains d)
    (hbound : patch_chain_bounded d)
    (hkind : nv.content_blob_kind.is_patch = true →
      ∃ p, nv.parent = some p ∧ p ≠ nv.id ∧
        patch_run d d.versions.length p + 1 < MAX_CONSECUTIVE_PATCHES) :
    patch_chain_bounded d' := by
  intro f id
  by_cases hid : id = nv.id
  · subst hid
    cases f with
    | zero =>
      rw [patch_run_zero]
      decide
    | succ f =>
      have hself : version d' nv.id = some nv := by
        unfold version
        rw [happ]
        exact find_id_append_self d.versions nv fun v hv => (hfr v hv).1
      rw [patch_run_succ_some d' f nv.id nv hself]
      cases hk : nv.content_blob_kind.is_patch with
      | false => simp; decide
      | true =>
        obtain ⟨p, hp, hpne, hlt⟩ := hkind hk
        rw [hp]
        dsimp only
        simp only [if_true]
        have hrun : patch_run d' f p = patch_run d f p := by
          unfold patch_run
          rw [chain_append_fresh d d' nv happ hfr f p hpne]
        rw [hrun]
        have h1 := patch_run_le_len_run d hst f p
        have hM : MAX_CONSECUTIVE_PATCHES = 7 := rfl
        rw [hM] at hlt ⊢
        omega
  · have hrun : patch_run d' f id = patch_run d f id := by
      unfold patch_run
      rw [chain_append_fresh d d' nv happ hfr f id hid]
    rw [hrun]
    exact hbound f id

/-- Swapping a childless version for a fresh one whose Patch choice respected the limit
preserves the patch-chain bound (the `amend_head` mutation shape). -/
theorem patch_chain_bounded_filter_append (d d' : RepositoryData) (hid : VersionId)
    (nv : Version)
    (happ : d'.versions = (d.versions.filter fun v => v.id != hid) ++ [nv])
    (hfr : ∀ v ∈ d.versions, v.id ≠ nv.id ∧ v.parent ≠ some nv.id)
    (hch : ∀ v ∈ d.versions, v.parent ≠ some hid)
    (hhidne : nv.id ≠ hid)
    (hst : stable_chains d)
    (hbound : patch_chain_bounded d)
    (hkind : nv.content_blob_kind.is_patch = true →
      ∃ p, nv.parent = some p ∧ p ≠ nv.id ∧
        patch_run d d.versions.length p + 1 < MAX_CONSECUTIVE_PATCHES) :
    patch_chain_bounded d' := by
  intro f id
  by_cases hid1 : id = nv.id
  · subst hid1
    cases f with
    | zero =>
      rw [patch_run_zero]
      decide
    | succ f =>
      have hself : version d' nv.id = some nv := by
        unfold version
        rw [happ]
        refine find_id_append_self _ nv ?_
        intro v hvmem
        exact (hfr v (List.mem_of_mem_filter hvmem)).1
      rw [patch_run_succ_some d' f nv.id nv hself]
      cases hk : nv.content_blob_kind.is_patch with
      | false => simp; decide
      | true =>
        obtain ⟨p, hp, hpne, hlt⟩ := hkind hk
        rw [hp]
        dsimp only
        simp only [if_true]
        have hM : MAX_CONSECUTIVE_PATCHES = 7 := rfl
        by_cases hph : p = hid
        · subst hph
          have hnone : version d' p = none := by
            unfold version
            rw [happ, find_id_append_ne _ nv p hpne]
            exact find_id_filter_self d.versions p
          have hzero : patch_run d' f p = 0 := by
            unfold patch_run
            rw [chain_nil_of_version_none d' f p hnone]
            rfl
          rw [hzero, hM]
          omega
        · have hrun : patch_run d' f p = patch_run d f p := by
            unfold patch_run
            rw [chain_filter_append d d' hid nv happ hfr hch f p hpne hph]
          rw [hrun]
          have h1 := patch_run_le_len_run d hst f p
          rw [hM] at hlt ⊢
          omega
  · by_cases hid2 : id = hid
    · subst hid2
      have hnone : version d' id = none := by
        unfold version
        rw [happ, find_id_append_ne _ nv id fun h => hid1 h]
        exact find_id_filter_self d.versions id
      have hzero : patch_run d' f id = 0 := by
        unfold patch_run
        rw [chain_nil_of_version_none d' f id hnone]
        rfl
      rw [hzero]
      decide
    · have hrun : patch_run d' f id = patch_run d f id := by
        unfold patch_run
        rw [chain_filter_append d d' hid nv happ hfr hch f id hid1 hid2]
      rw [hrun]
      exact hbound f id

/-- `stable_chains` follows from its restriction to stored ids. -/
theorem stable_chains_of_members (d : RepositoryData)
    (h : ∀ v ∈ d.versions,
      (ancestor_chain d (d.versions.length + 1) v.id).length ≤ d.versions.length) :
    stable_chains d := by
  intro id
  cases hv : version d id with
  | none =>
    rw [chain_nil_of_version_none d _ id hv]
    simp
  | some v =>
    have hvid := version_id_eq d id v hv
    have hvmem := version_mem d id v hv
    rw [← hvid]
    exact h v hvmem

/-- `patch_chain_bounded` follows from its restriction to stored ids at the source's
fuel. -/
theorem patch_chain_bounded_of_members (d : RepositoryData) (hst : stable_chains d)
    (h : ∀ v ∈ d.versions,
      patch_run d d.versions.length v.id < MAX_CONSECUTIVE_PATCHES) :
    patch_chain_bounded d := by
  intro f id
  have hle := patch_run_le_len_run d hst f id
  cases hv : version d id with
  | none =>
    have hzero : patch_run d f id = 0 := by
      unfold patch_run
      rw [chain_nil_of_version_none d f id hv]
      rfl
    rw [hzero]
    decide
  | some v =>
    have hvid := version_id_eq d id v hv
    have hvmem := version_mem d id v hv
    calc patch_run d f id ≤ patch_run d d.versions.length id := hle
      _ = patch_run d d.versions.length v.id := by rw [hvid]
      _ < MAX_CONSECUTIVE_PATCHES := h v hvmem

/-- C8. Committing and amending preserve the patch-chain bound — every run of
consecutive Patch-stored versions along a parent chain stays strictly below
`MAX_CONSECUTIVE_PATCHES = 7` — because `content_blob_kind_for_child_of` chooses Full
as soon as the consecutive-patch count starting at the parent (plus the would-be child)
reaches the limit. -/
theorem C8_patch_chain_bound (d : RepositoryData) (b : Boundary)
    (new_branch description : Option String) (hv : Version)
    (hhv : head_version d = some hv)
    (hst : stable_chains d)
    (hfr : ∀ v ∈ d.versions, v.id ≠ b.new_version_id ∧ v.parent ≠ some b.new_version_id)
    (hbound : patch_chain_bounded d) :
    patch_chain_bounded (commit_version d b new_branch description).data ∧
      patch_chain_bounded (amend_head d b description).data ∧
      (MAX_CONSECUTIVE_PATCHES ≤ patch_run d d.versions.length hv.id + 1 →
        content_blob_kind_for_child_of d hv.id = .Full) := by
  have hvmem := head_version_mem d hv hhv
  refine ⟨?_, ?_, ?_⟩
  · unfold commit_version
    rw [hhv]
    dsimp only
    split
    · exact hbound
    · split
      · exact hbound
      · split
        · exact hbound
        · rw [finish_with_blobs_data]
          refine patch_chain_bounded_append d _ _ rfl hfr hst hbound ?_
          intro hk
          refine ⟨hv.id, rfl, fun h => (hfr hv hvmem).1 h, ?_⟩
          exact (content_blob_kind_patch_iff d hv.id).mp hk
  · unfold amend_head
    rw [hhv]
    dsimp only
    split
    · exact hbound
    · split
      · exact hbound
      · split
        · exact hbound
        · rename_i hnochild
          have hch : ∀ v ∈ d.versions, v.parent ≠ some hv.id := by
            intro v hvm hcontra
            have hempty : (iter_children d hv.id).isEmpty = true := by
              cases hie : (iter_children d hv.id).isEmpty with
              | true => rfl
              | false => exact absurd (by rw [hie]; rfl) hnochild
            have hnil : iter_children d hv.id = [] := by
              rwa [List.isEmpty_iff] at hempty
            have hmem2 : v ∈ iter_children d hv.id := by
              unfold iter_children
              rw [List.mem_filter]
              exact ⟨hvm, by rw [hcontra]; exact beq_self_eq_true _⟩
            rw [hnil] at hmem2
            cases hmem2
          split
          · rename_i parent_id hparent
            split
            · exact hbound
            · split
              · exact hbound
              · unfold amend_finish
                rw [finish_with_blobs_data]
                refine patch_chain_bounded_filter_append d _ hv.id _ rfl hfr hch
                  (Ne.symm (hfr hv hvmem).1) hst hbound ?_
                intro hk
                rw [hparent] at hk
                dsimp only at hk
                refine ⟨parent_id, ?_, ?_,
                  (content_blob_kind_patch_iff d parent_id).mp hk⟩
                · exact hparent
                · intro hcontra
                  exact (hfr hv hvmem).2 (by rw [hparent, hcontra])
          · rename_i hparent
            unfold amend_finish
            rw [finish_with_blobs_data]
            refine patch_chain_bounded_filter_append d _ hv.id _ rfl hfr hch
              (Ne.symm (hfr hv hvmem).1) hst hbound ?_
            intro hk
            rw [hparent] at hk
            simp [ContentBlobKind.is_patch] at hk
  · intro h
    unfold content_blob_kind_for_child_of
    simp [h]

/-- C8 witness: the preservation statement evaluated on `exampleSingle` with fresh id
`2`; the stability and bound hypotheses are established from their decidable member
restrictions. -/
theorem C8_patch_chain_bound_witness :
    (head_version exampleSingle = some (mkVersion 1 none .Full 1 10) ∧
        (∀ v ∈ exampleSingle.versions,
          v.id ≠ exampleBoundaryNoTool.new_version_id ∧
            v.parent ≠ some exampleBoundaryNoTool.new_version_id)) ∧
      (patch_chain_bounded (commit_version exampleSingle exampleBoundaryNoTool none none).data ∧
        patch_chain_bounded (amend_head exampleSingle exampleBoundaryNoTool none).data ∧
        (MAX_CONSECUTIVE_PATCHES ≤
            patch_run exampleSingle exampleSingle.versions.length
                (mkVersion 1 none .Full 1 10).id + 1 →
          content_blob_kind_for_child_of exampleSingle (mkVersion 1 none .Full 1 10).id =
            .Full)) :=
  ⟨⟨by decide, by decide⟩,
    C8_patch_chain_bound exampleSingle exampleBoundaryNoTool none none
      (mkVersion 1 none .Full 1 10) (by decide)
      (stable_chains_of_members exampleSingle (by decide))
      (by decide)
      (patch_chain_bounded_of_members exampleSingle
        (stable_chains_of_members exampleSingle (by decide)) (by decide))⟩

/-- With a branch head, a resolved strict target and a resolvable head version, `reset`
reduces to its three guards over the erased prefix. -/
theorem reset_branch_eq (d : RepositoryData) (target : String) (br : String)
    (hv tv : Version)
    (hhd : d.head = Head.Branch br)
    (hhv : head_version d = some hv)
    (hres : resolve_target_strict d target = some tv) :
    reset d target =
      (if (erased_set d hv tv).any Version.is_root = true then
        some (.InvalidTarget, d)
      else if count_is_at_least (iter_children d hv.id) 1 = true then
        some (.CannotLeaveOrphans, d)
      else if (erased_set d hv tv).any
          (fun v => count_is_at_least (iter_children d v.id) 2) = true then
        some (.CannotLeaveOrphans, d)
      else
        some (.Ok,
          { head := d.head
            branches := map_insert d.branches br tv.id
            versions := d.versions.filter fun v =>
              !(((erased_set d hv tv).map Version.id).contains v.id) })) := by
  unfold reset
  rw [hhd]
  dsimp only
  rw [hres]
  dsimp only
  rw [hhv]
  dsimp only
  rfl

/-- C5. `reset` refuses with `HeadMustBeBranch` on a detached head; with a branch head
it refuses with `InvalidTarget` when the target does not strictly resolve or when the
erased prefix E of the head-to-root chain contains the root, refuses with
`CannotLeaveOrphans` exactly when the head has children or some erased version has a
child outside E, and otherwise removes exactly the versions of E and points the head
branch at the target. -/
theorem C5_reset_characterisation (d : RepositoryData) (target : String) (hv : Version)
    (hids : (d.versions.map Version.id).Nodup)
    (hst : stable_chains d)
    (hhv : head_version d = some hv)
    (hnd : ((ancestor_chain d d.versions.length hv.id).map Version.id).Nodup) :
    (∀ vid, d.head = Head.Version vid → reset d target = some (.HeadMustBeBranch, d)) ∧
      (∀ br, d.head = Head.Branch br →
        (resolve_target_strict d target = none →
            reset d target = some (.InvalidTarget, d)) ∧
          (∀ tv, resolve_target_strict d target = some tv →
            ((∃ v ∈ erased_set d hv tv, v.parent = none) →
                reset d target = some (.InvalidTarget, d)) ∧
              ((∀ v ∈ erased_set d hv tv, v.parent ≠ none) →
                ((iter_children d hv.id ≠ [] ∨
                    ∃ v ∈ erased_set d hv tv, ∃ w ∈ iter_children d v.id,
                      w ∉ erased_set d hv tv) →
                    reset d target = some (.CannotLeaveOrphans, d)) ∧
                  ((iter_children d hv.id = [] ∧
                      ∀ v ∈ erased_set d hv tv, ∀ w ∈ iter_children d v.id,
                        w ∈ erased_set d hv tv) →
                    ∃ d', reset d target = some (.Ok, d') ∧
                      d'.head = d.head ∧
                      d'.branches = map_insert d.branches br tv.id ∧
                      ∀ w, w ∈ d'.versions ↔
                        (w ∈ d.versions ∧ w ∉ erased_set d hv tv))))) := by
  constructor
  · intro vid hhd
    unfold reset
    rw [hhd]
  · intro br hhd
    constructor
    · intro hres
      unfold reset
      rw [hhd]
      dsimp only
      rw [hres]
    · intro tv hres
      have hres_eq := reset_branch_eq d target br hv tv hhd hhv hres
      have hEtake : erased_set d hv tv =
          (ancestor_chain d d.versions.length hv.id).take
            (erased_set d hv tv).length := takeWhile_eq_take _ _
      constructor
      · intro hroot
        have hany : (erased_set d hv tv).any Version.is_root = true := by
          rw [List.any_eq_true]
          obtain ⟨v, hvE, hp⟩ := hroot
          refine ⟨v, hvE, ?_⟩
          unfold Version.is_root
          rw [hp]
          rfl
        rw [hres_eq, if_pos hany]
      · intro hnroot
        have hanyroot : (erased_set d hv tv).any Version.is_root = false := by
          cases h : (erased_set d hv tv).any Version.is_root with
          | false => rfl
          | true =>
            rw [List.any_eq_true] at h
            obtain ⟨v, hvE, hp⟩ := h
            unfold Version.is_root at hp
            rw [Option.isNone_iff_eq_none] at hp
            exact absurd hp (hnroot v hvE)
        constructor
        · intro horph
          by_cases hA : iter_children d hv.id = []
          · rcases horph with hne | hout
            · exact absurd hA hne
            · have hiff := erased_orphan_iff d hv (erased_set d hv tv).length hids hst
                hhv hnd hA
              rw [← hEtake] at hiff
              have h2 := hiff.mpr hout
              have hcnt1 : count_is_at_least (iter_children d hv.id) 1 = false := by
                rw [hA]
                rfl
              have hany2 : (erased_set d hv tv).any
                  (fun v => count_is_at_least (iter_children d v.id) 2) = true := by
                rw [List.any_eq_true]
                obtain ⟨v, hvE, h2le⟩ := h2
                refine ⟨v, hvE, ?_⟩
                simp only [count_is_at_least, decide_eq_true_eq]
                exact h2le
              rw [hres_eq, if_neg (by rw [hanyroot]; simp), if_neg (by rw [hcnt1]; simp),
                if_pos hany2]
          · have hcnt1 : count_is_at_least (iter_children d hv.id) 1 = true := by
              have hpos : 0 < (iter_children d hv.id).length := List.length_pos.mpr hA
              simp only [count_is_at_least, decide_eq_true_eq]
              omega
            rw [hres_eq, if_neg (by rw [hanyroot]; simp), if_pos hcnt1]
        · rintro ⟨hA, hinside⟩
          have hiff := erased_orphan_iff d hv (erased_set d hv tv).length hids hst
            hhv hnd hA
          rw [← hEtake] at hiff
          have hno2 : ¬ ∃ v ∈ erased_set d hv tv,
              2 ≤ (iter_children d v.id).length := by
            intro h
            obtain ⟨v, hvE, w, hw, hwnot⟩ := hiff.mp h
            exact hwnot (hinside v hvE w hw)
          have hcnt1 : count_is_at_least (iter_children d hv.id) 1 = false := by
            rw [hA]
            rfl
          have hany2 : (erased_set d hv tv).any
              (fun v => count_is_at_least (iter_children d v.id) 2) = false := by
            cases h : (erased_set d hv tv).any
                (fun v => count_is_at_least (iter_children d v.id) 2) with
            | false => rfl
            | true =>
              rw [List.any_eq_true] at h
              obtain ⟨v, hvE, hc⟩ := h
              simp only [count_is_at_least, decide_eq_true_eq] at hc
              exact absurd ⟨v, hvE, hc⟩ hno2
          refine ⟨{ head := d.head, branches := map_insert d.branches br tv.id,
                    versions := d.versions.filter fun v =>
                      !(((erased_set d hv tv).map Version.id).contains v.id) },
                  ?_, rfl, rfl, ?_⟩
          · rw [hres_eq, if_neg (by rw [hanyroot]; simp), if_neg (by rw [hcnt1]; simp),
              if_neg (by rw [hany2]; simp)]
          · intro w
            dsimp only
            rw [List.mem_filter]
            constructor
            · rintro ⟨hwmem, hwb⟩
              refine ⟨hwmem, ?_⟩
              intro hwE
              rw [Bool.not_eq_true'] at hwb
              have hidm : w.id ∈ (erased_set d hv tv).map Version.id :=
                List.mem_map_of_mem Version.id hwE
              have hcont : ((erased_set d hv tv).map Version.id).contains w.id = true := by
                simpa using hidm
              rw [hcont] at hwb
              cases hwb
            · rintro ⟨hwmem, hwnot⟩
              refine ⟨hwmem, ?_⟩
              rw [Bool.not_eq_true']
              cases hc : ((erased_set d hv tv).map Version.id).contains w.id with
              | false => rfl
              | true =>
                have hcm : w.id ∈ (erased_set d hv tv).map Version.id := by
                  simpa using hc
                obtain ⟨u, huE, huid⟩ := List.mem_map.mp hcm
                have humem : u ∈ d.versions := by
                  have huch : u ∈ ancestor_chain d d.versions.length hv.id := by
                    have := huE
                    rw [hEtake] at this
                    exact List.take_subset _ _ this
                  exact chain_subset_versions d _ _ u huch
                have huw : u = w := List.inj_on_of_nodup_map hids humem hwmem huid
                exact absurd (huw ▸ huE) hwnot

/-- C5 witness: resetting `exampleResettable` (branch `main` at child `2`) to target
`"2"` (the Base58 spelling of the root id `1`) succeeds and erases exactly the old head
version. -/
theorem C5_reset_characterisation_witness :
    ∃ d', reset exampleResettable "2" = some (.Ok, d') ∧
      d'.head = exampleResettable.head ∧
      d'.branches = map_insert exampleResettable.branches "main" 1 ∧
      ∀ w, w ∈ d'.versions ↔
        (w ∈ exampleResettable.versions ∧
          w ∉ erased_set exampleResettable (mkVersion 2 (some 1) .Full 2 20)
            (mkVersion 1 none .Full 1 10)) :=
  ((((C5_reset_characterisation exampleResettable "2" (mkVersion 2 (some 1) .Full 2 20)
        (by decide) (stable_chains_of_members exampleResettable (by decide)) (by decide)
        (by decide)).2 "main" (by decide)).2 (mkVersion 1 none .Full 1 10)
      (by decide)).2 (by decide)).2 (by decide)

/-- C7 witness: on `exampleBranchVsNickname`, whose version is nicknamed `main-deer`
(which the nickname rule would match for input `main`), the input `main` still resolves
to the branch. -/
theorem C7_branch_name_precedence_witness :
    ("main" ≠ "" ∧ contains_key exampleBranchVsNickname.branches "main" = true ∧
        nickname_matches "main-deer" "main" = true) ∧
      (resolve_target exampleBranchVsNickname "main" = some (.Branch "main") ↔
        contains_key exampleBranchVsNickname.branches "main" = true) :=
  ⟨⟨by decide, by decide, by decide⟩,
    C7_branch_name_precedence exampleBranchVsNickname "main" (by decide)⟩

end Biver
